import Mathlib

/-!
Shallow embedding of the BVH core of the gpuart ray tracer
(src/core.h, src/core.cpp, src/bvh.h, src/bvh.cpp).

Modelling conventions:
* `GLfloat` scalars are modelled as `ℚ`.  Every operation the claims depend on
  (comparisons, `min`/`max`-style folds, midpoint arithmetic) is exact on the
  float values the code actually computes, so the ordering/structural facts
  proved here are faithful to the IEEE semantics of the source.
* A buffer element (`Primitive::Data` entry) physically stores 32 bits that are
  logically either a float or a `uint32_t` written through
  `reinterpret_cast`.  Since the cast is a bijection on bit patterns we model a
  buffer element as the sum `Slot` of the two logical readings.
* `unsigned`/`uint32_t` arithmetic is modelled on `ℕ` with explicit `% 2^32`
  where the source can wrap (`currentLevel == maxNumLevels-1` comparison,
  `(uint32_t)` casts of buffer sizes).
* `std::sort` is modelled by `List.mergeSort` with the source's comparator:
  every proof below uses only the permutation property, which every
  conforming `std::sort` implementation shares.
* Null-pointer dereference (`*node.lower` when `lower` is null) is modelled by
  `Option`: `CompileFrom` returns `none` exactly when the C++ would
  dereference a null child.
-/

/-- 2^32, the modulus of C++ `unsigned`/`uint32_t` arithmetic. -/
def U32 : ℕ := 4294967296

/-- `gpuart::Vec3f` (math_types.h), components modelled as `ℚ`. -/
structure Vec3 where
  x : ℚ
  y : ℚ
  z : ℚ
deriving DecidableEq

/-- The closed set of primitive variants (core.h classes `Sphere`, `Disc`,
`Triangle`, `Cone`).  Each variant carries exactly the member fields of the
C++ class that are ever read by the BVH code: for `Cone` this includes the
derived quantities precomputed by the constructor (their values involve
square roots, so they are carried as fields; no claim depends on how the
constructor computes them). -/
inductive Prim where
  | sphere (center : Vec3) (radius : ℚ)
  | disc (center normal : Vec3) (radius : ℚ)
  | triangle (v0 v1 v2 : Vec3)
  | cone (center1 center2 : Vec3) (radius1 radius2 : ℚ)
      (unitAxis : Vec3) (axisLen widthCoeff cosB dotAxC1 : ℚ)
deriving DecidableEq

/-- `Primitive::GetXmin`, with the per-variant `CalcBoundingBox` bodies
inlined (core.cpp): sphere/disc use `Center - Radius`, triangle folds `min`
over its vertices starting from the sentinel `9e+19`, cone takes the
min over both caps. -/
def Prim.GetXmin : Prim → ℚ
  | .sphere c r => c.x - r
  | .disc c _ r => c.x - r
  | .triangle v0 v1 v2 => min (min (min (9 * 10 ^ 19) v0.x) v1.x) v2.x
  | .cone c1 c2 r1 r2 _ _ _ _ _ => min (c1.x - r1) (c2.x - r2)

/-- `Primitive::GetXmax` (see `Prim.GetXmin`). -/
def Prim.GetXmax : Prim → ℚ
  | .sphere c r => c.x + r
  | .disc c _ r => c.x + r
  | .triangle v0 v1 v2 => max (max (max (-(9 * 10 ^ 19)) v0.x) v1.x) v2.x
  | .cone c1 c2 r1 r2 _ _ _ _ _ => max (c1.x + r1) (c2.x + r2)

/-- `Primitive::GetYmin` (see `Prim.GetXmin`). -/
def Prim.GetYmin : Prim → ℚ
  | .sphere c r => c.y - r
  | .disc c _ r => c.y - r
  | .triangle v0 v1 v2 => min (min (min (9 * 10 ^ 19) v0.y) v1.y) v2.y
  | .cone c1 c2 r1 r2 _ _ _ _ _ => min (c1.y - r1) (c2.y - r2)

/-- `Primitive::GetYmax` (see `Prim.GetXmin`). -/
def Prim.GetYmax : Prim → ℚ
  | .sphere c r => c.y + r
  | .disc c _ r => c.y + r
  | .triangle v0 v1 v2 => max (max (max (-(9 * 10 ^ 19)) v0.y) v1.y) v2.y
  | .cone c1 c2 r1 r2 _ _ _ _ _ => max (c1.y + r1) (c2.y + r2)

/-- `Primitive::GetZmin` (see `Prim.GetXmin`). -/
def Prim.GetZmin : Prim → ℚ
  | .sphere c r => c.z - r
  | .disc c _ r => c.z - r
  | .triangle v0 v1 v2 => min (min (min (9 * 10 ^ 19) v0.z) v1.z) v2.z
  | .cone c1 c2 r1 r2 _ _ _ _ _ => min (c1.z - r1) (c2.z - r2)

/-- `Primitive::GetZmax` (see `Prim.GetXmin`). -/
def Prim.GetZmax : Prim → ℚ
  | .sphere c r => c.z + r
  | .disc c _ r => c.z + r
  | .triangle v0 v1 v2 => max (max (max (-(9 * 10 ^ 19)) v0.z) v1.z) v2.z
  | .cone c1 c2 r1 r2 _ _ _ _ _ => max (c1.z + r1) (c2.z + r2)

/-- One element of `gpuart::Primitive::Data` (a `GLfloat` slot): either a
float value or a `uint32_t` bit pattern written via `reinterpret_cast`. -/
inductive Slot where
  | F (v : ℚ)
  | U (v : ℕ)
deriving DecidableEq

/-- `RGBA_PAD` (core.h): the padding sentinel `0.0f`. -/
def RGBA_PAD : Slot := .F 0

/-- The six-float extent part of `gpuart::BoundingBox` (bvh.h). -/
structure Box where
  xmin : ℚ
  xmax : ℚ
  ymin : ℚ
  ymax : ℚ
  zmin : ℚ
  zmax : ℚ
deriving DecidableEq

/-- The sentinel-initialised extent of `Subdivide` before its primitive loop:
`xminall = 99.0e+29f`, `xmaxall = -99.0e+29f`, etc. (bvh.cpp lines 42-44). -/
def sentinelBox : Box :=
  ⟨99 * 10 ^ 29, -(99 * 10 ^ 29), 99 * 10 ^ 29, -(99 * 10 ^ 29), 99 * 10 ^ 29, -(99 * 10 ^ 29)⟩

/-- One iteration of the bounding-box accumulation loop of `Subdivide`
(bvh.cpp lines 47-61): `if (xmin < xminall) xminall = xmin;` etc. -/
def updateBox (b : Box) (p : Prim) : Box :=
  ⟨min b.xmin p.GetXmin, max b.xmax p.GetXmax,
   min b.ymin p.GetYmin, max b.ymax p.GetYmax,
   min b.zmin p.GetZmin, max b.zmax p.GetZmax⟩

/-- The whole accumulation loop of `Subdivide` over a primitive range. -/
def foldBox (ps : List Prim) : Box :=
  ps.foldl updateBox sentinelBox

/-- Componentwise union of two boxes (min of mins, max of maxs). -/
def boxUnion (a b : Box) : Box :=
  ⟨min a.xmin b.xmin, max a.xmax b.xmax,
   min a.ymin b.ymin, max a.ymax b.ymax,
   min a.zmin b.zmin, max a.zmax b.zmax⟩

/-- `a` contains `b`, componentwise. -/
def boxContains (a b : Box) : Prop :=
  a.xmin ≤ b.xmin ∧ b.xmax ≤ a.xmax ∧
  a.ymin ≤ b.ymin ∧ b.ymax ≤ a.ymax ∧
  a.zmin ≤ b.zmin ∧ b.zmax ≤ a.zmax

instance (a b : Box) : Decidable (boxContains a b) := by
  unfold boxContains; infer_instance

/-- `gpuart::BoundingBox` (bvh.h): extent, two optional owned children
(`unique_ptr`, null modelled by `none`) and a primitive list. -/
inductive BoundingBox where
  | mk (box : Box) (lower higher : Option BoundingBox) (primitives : List Prim)

/-- Extent of a node. -/
def BoundingBox.box : BoundingBox → Box
  | .mk b _ _ _ => b

/-- `lower` child pointer of a node. -/
def BoundingBox.lower : BoundingBox → Option BoundingBox
  | .mk _ lo _ _ => lo

/-- `higher` child pointer of a node. -/
def BoundingBox.higher : BoundingBox → Option BoundingBox
  | .mk _ _ hi _ => hi

/-- Primitive list of a node. -/
def BoundingBox.primitives : BoundingBox → List Prim
  | .mk _ _ _ ps => ps

/-- The contiguous sub-range `[frm, to)` of a vector, i.e. the elements the
C++ iterators `begin()+from .. begin()+to` range over. -/
def subrange (l : List Prim) (frm tto : ℕ) : List Prim :=
  (l.drop frm).take (tto - frm)

/-- In-place `std::sort(primitives.begin()+from, primitives.begin()+to, le)`:
the part before `frm` and from `to` on are untouched, the sub-range is
replaced by a comparator-sorted permutation of itself. -/
def sortRange (l : List Prim) (frm tto : ℕ) (le : Prim → Prim → Bool) : List Prim :=
  l.take frm ++ (subrange l frm tto).mergeSort le ++ l.drop tto

/-- Midpoint of a primitive's own extent on the X axis, as computed by the
sort comparator and the split scan: `(GetXmin() + GetXmax())*0.5`. -/
def centerX (p : Prim) : ℚ := (p.GetXmin + p.GetXmax) * (1/2)

/-- Y-axis analogue of `centerX`. -/
def centerY (p : Prim) : ℚ := (p.GetYmin + p.GetYmax) * (1/2)

/-- Z-axis analogue of `centerX`. -/
def centerZ (p : Prim) : ℚ := (p.GetZmin + p.GetZmax) * (1/2)

/-- The sort-and-scan part of `Subdivide` (bvh.cpp lines 84-135): sorts the
sub-range by center along the chosen longest axis, then walks forward from
`frm` over primitives whose center is `≤` the range box's middle point.
Returns the sorted vector and the resulting `subdivisionIndex`.  The final
(in exact arithmetic unreachable) fall-through of the C++ `else if` chain
leaves the vector unsorted and `subdivisionIndex = from`. -/
def axisSortAndScan (l : List Prim) (frm tto : ℕ) (bb : Box) : List Prim × ℕ :=
  let xrange := bb.xmax - bb.xmin
  let yrange := bb.ymax - bb.ymin
  let zrange := bb.zmax - bb.zmin
  if xrange ≥ yrange ∧ xrange ≥ zrange then
    let s := sortRange l frm tto (fun p1 p2 => decide (centerX p1 < centerX p2))
    (s, frm + ((subrange s frm tto).takeWhile
        (fun p => decide ((1/2) * (p.GetXmin + p.GetXmax) ≤ bb.xmin + (1/2) * xrange))).length)
  else if yrange ≥ xrange ∧ yrange ≥ zrange then
    let s := sortRange l frm tto (fun p1 p2 => decide (centerY p1 < centerY p2))
    (s, frm + ((subrange s frm tto).takeWhile
        (fun p => decide ((1/2) * (p.GetYmin + p.GetYmax) ≤ bb.ymin + (1/2) * yrange))).length)
  else if zrange ≥ xrange ∧ zrange ≥ yrange then
    let s := sortRange l frm tto (fun p1 p2 => decide (centerZ p1 < centerZ p2))
    (s, frm + ((subrange s frm tto).takeWhile
        (fun p => decide ((1/2) * (p.GetZmin + p.GetZmax) ≤ bb.zmin + (1/2) * zrange))).length)
  else
    (l, frm)

/-- The degenerate-split guard of `Subdivide` (bvh.cpp lines 137-145),
applied only when the range holds more than two primitives. -/
def guardIdx (frm tto si : ℕ) : ℕ :=
  if tto - frm > 2 then
    if si = frm then si + 1
    else if si = tto then si - 1
    else si
  else si

/-- `BoundingVolumesHierarchy::Subdivide` (bvh.cpp lines 35-152), modelled as
a pure function: instead of mutating `node` and `primitives` it returns the
node it built together with the (possibly reordered) vector.

The leaf test `currentLevel == maxNumLevels-1` is C++ `unsigned` equality,
i.e. equality mod `2^32` with `maxNumLevels-1` wrapping when
`maxNumLevels = 0`; this is also what makes the recursion well-founded for
arbitrary arguments.  `to - from` is `size_t` arithmetic; every reachable
call has `from ≤ to`, where truncated subtraction on `ℕ` coincides with it. -/
def Subdivide (primitives : List Prim) (frm tto currentLevel maxNumLevels minPrimitivesPerNode : ℕ) :
    BoundingBox × List Prim :=
  let bb := foldBox (subrange primitives frm tto)
  if h : tto - frm ≤ minPrimitivesPerNode ∨ currentLevel % U32 = (maxNumLevels + (U32 - 1)) % U32 then
    (.mk bb none none (subrange primitives frm tto), primitives)
  else
    let ss := axisSortAndScan primitives frm tto bb
    let si := guardIdx frm tto ss.2
    let lo := Subdivide ss.1 frm si (currentLevel + 1) maxNumLevels minPrimitivesPerNode
    let hi := Subdivide lo.2 si tto (currentLevel + 1) maxNumLevels minPrimitivesPerNode
    (.mk bb (some lo.1) (some hi.1) [], hi.2)
termination_by ((maxNumLevels + (U32 - 1)) % U32 + U32 - currentLevel % U32) % U32
decreasing_by
  all_goals
    simp only [not_or] at h
    unfold U32 at h ⊢
    omega

/-- The `BoundingVolumesHierarchy` constructor (bvh.h lines 78-82): builds the
root by subdividing the whole vector from level 0.  Returns the root node and
the reordered vector. -/
def BVHConstruct (primitives : List Prim) (maxNumLevels minPrimitivesPerNode : ℕ) :
    BoundingBox × List Prim :=
  Subdivide primitives 0 primitives.length 0 maxNumLevels minPrimitivesPerNode

/-- `gpuart::Primitive_t` (core.h): `SPHERE=0, DISC=1, TRIANGLE=2, CONE=3`,
as returned by each variant's `GetType()`. -/
def Prim.GetType : Prim → ℕ
  | .sphere _ _ => 0
  | .disc _ _ _ => 1
  | .triangle _ _ _ => 2
  | .cone _ _ _ _ _ _ _ _ _ => 3

/-- `StoreDataIntoBVH` of each variant (core.cpp): the shape-specific payload
slots appended to the buffer, in source order. -/
def Prim.StoreDataIntoBVH : Prim → List Slot
  | .sphere c r => [.F c.x, .F c.y, .F c.z, .F r]
  | .disc c n r => [.F c.x, .F c.y, .F c.z, .F r, .F n.x, .F n.y, .F n.z, RGBA_PAD]
  | .triangle v0 v1 v2 =>
      [.F v0.x, .F v0.y, .F v0.z, RGBA_PAD,
       .F v1.x, .F v1.y, .F v1.z, RGBA_PAD,
       .F v2.x, .F v2.y, .F v2.z, RGBA_PAD]
  | .cone c1 c2 r1 r2 ax axl wc cb dac =>
      [.F c1.x, .F c1.y, .F c1.z, .F r1,
       .F c2.x, .F c2.y, .F c2.z, .F r2,
       .F ax.x, .F ax.y, .F ax.z, .F axl,
       .F wc, .F cb, .F dac, RGBA_PAD]

/-- `Primitive::StoreIntoBVH` (core.h lines 72-80): the type tag reinterpreted
into a float slot, three padding slots, then the variant payload. -/
def Prim.StoreIntoBVH (p : Prim) : List Slot :=
  .U p.GetType :: RGBA_PAD :: RGBA_PAD :: RGBA_PAD :: p.StoreDataIntoBVH

/-- Flag bit `LEAF = 1UL << 31` (bvh.h). -/
def LEAF : ℕ := 2 ^ 31

/-- Flag bit `IS_LOWER = 1UL << 30` (bvh.h). -/
def IS_LOWER : ℕ := 2 ^ 30

/-- Flag bit `IS_ROOT = 1UL << 29` (bvh.h). -/
def IS_ROOT : ℕ := 2 ^ 29

/-- `FLAGS_MASK = LEAF | IS_LOWER | IS_ROOT` (bvh.h). -/
def FLAGS_MASK : ℕ := LEAF ||| IS_LOWER ||| IS_ROOT

/-- `~FLAGS_MASK` on `uint32_t`: the complement of the three flag bits within
32 bits, i.e. `2^29 - 1`. -/
def FLAGS_COMPL : ℕ := U32 - 1 - FLAGS_MASK

/-- `BoundingVolumesHierarchy::CompileFrom` (bvh.cpp lines 161-222), with the
buffer passed and returned explicitly.  `isRoot` models the pointer identity
test `&node == Root.get()`, which holds exactly for the node `Compile`
starts from.  A null-child dereference (`*node.lower` / `*node.higher` with a
null pointer, reachable when an empty-primitive node has no children) is
modelled by returning `none`.  The `(uint32_t)` casts of buffer sizes are the
explicit `% U32`.  The debug-only `assert(compiledTree.size() <= 1u<<31)` is
not modelled. -/
def CompileFrom : BoundingBox → List Slot → ℕ → Bool → Bool → Option (List Slot)
  | .mk bb lo hi prims, compiledTree, parentAddr, isLower, isRoot =>
    let nodeAddr := (compiledTree.length / 4) % U32
    let buf1 := compiledTree ++
      [.F bb.xmin, .F bb.ymin, .F bb.zmin, RGBA_PAD,
       .F bb.xmax, .F bb.ymax, .F bb.zmax, RGBA_PAD]
    let flags := (if isLower then IS_LOWER else 0) ||| (if isRoot then IS_ROOT else 0)
    if prims = [] then
      let buf2 := buf1 ++ [.U flags]
      let lowerAddrLoc := buf2.length % U32
      let buf3 := buf2 ++ [.F 0]
      let higherAddrLoc := buf3.length % U32
      let buf4 := (buf3 ++ [.F 0]) ++ [.U parentAddr]
      let lowerAddr := (buf4.length / 4) % U32
      let buf5 := buf4.set lowerAddrLoc (.U lowerAddr)
      (match lo with
       | none => none
       | some l => CompileFrom l buf5 nodeAddr true false).bind (fun buf6 =>
        let higherAddr := (buf6.length / 4) % U32
        let buf7 := buf6.set higherAddrLoc (.U higherAddr)
        match hi with
        | none => none
        | some h => CompileFrom h buf7 nodeAddr false false)
    else
      let flags2 := flags ||| LEAF ||| (prims.length % U32 &&& FLAGS_COMPL)
      some ((buf1 ++ [.U flags2, RGBA_PAD, RGBA_PAD, .U parentAddr]) ++
        prims.flatMap Prim.StoreIntoBVH)

/-- `BoundingVolumesHierarchy::Compile` (bvh.h lines 85-88): compiles from the
root with parent address 0, not a lower child, and the root-pointer identity
holding. -/
def Compile (root : BoundingBox) (compiledTree : List Slot) : Option (List Slot) :=
  CompileFrom root compiledTree 0 false true

/-- Cursor state of the `PrintBVH` readers: the iterator position and the
sequence of slots printed so far (each `*it++` read prints one slot). -/
structure PrintCursor where
  pos : ℕ
  printed : List Slot
deriving DecidableEq

/-- One `*it++` read of a `PrintBVH` function: prints the slot under the
cursor and advances.  Reading past the end (C++ undefined behaviour on the
iterator) yields the padding value. -/
def printRead (buf : List Slot) (c : PrintCursor) : PrintCursor :=
  ⟨c.pos + 1, c.printed ++ [buf.getD c.pos RGBA_PAD]⟩

/-- An `it++` / `it += n` padding skip of a `PrintBVH` function: advances
without printing. -/
def printSkip (n : ℕ) (c : PrintCursor) : PrintCursor :=
  ⟨c.pos + n, c.printed⟩

/-- `Sphere::PrintBVH` (core.cpp lines 68-75): four reads
(center x,y,z and radius). -/
def SpherePrintBVH (buf : List Slot) (c : PrintCursor) : PrintCursor :=
  printRead buf (printRead buf (printRead buf (printRead buf c)))

/-- `Disc::PrintBVH` (core.cpp lines 118-131): seven reads (center, radius,
normal) then one padding skip. -/
def DiscPrintBVH (buf : List Slot) (c : PrintCursor) : PrintCursor :=
  printSkip 1 (printRead buf (printRead buf (printRead buf (printRead buf
    (printRead buf (printRead buf (printRead buf c)))))))

/-- `Triangle::PrintBVH` (core.cpp lines 171-186): three rounds of three
vertex reads followed by a padding skip. -/
def TrianglePrintBVH (buf : List Slot) (c : PrintCursor) : PrintCursor :=
  let round := fun c0 => printSkip 1 (printRead buf (printRead buf (printRead buf c0)))
  round (round (round c))

/-- `Cone::PrintBVH` (core.cpp lines 248-281): three reads and a skip for
each of `Center1`, `Center2`, `UnitAxis`, then six further reads (labelled
radius1, radius2, axis length, width coefficient, cosine, dot product in the
source) and a final two-slot skip. -/
def ConePrintBVH (buf : List Slot) (c : PrintCursor) : PrintCursor :=
  let vec := fun c0 => printSkip 1 (printRead buf (printRead buf (printRead buf c0)))
  printSkip 2 (printRead buf (printRead buf (printRead buf (printRead buf
    (printRead buf (printRead buf (vec (vec (vec c)))))))))

/-- All nodes of a tree (the node itself and, recursively, the nodes of both
children when present). -/
def allNodes : BoundingBox → List BoundingBox
  | .mk bb lo hi ps =>
    .mk bb lo hi ps ::
      ((match lo with | some l => allNodes l | none => []) ++
       (match hi with | some h => allNodes h | none => []))

/-- Primitives stored throughout a tree, lower subtree first — for trees built
by `Subdivide` this is the concatenation of the leaves' primitive lists in
depth-first order. -/
def leafPrims : BoundingBox → List Prim
  | .mk _ lo hi ps =>
    ps ++ (match lo with | some l => leafPrims l | none => []) ++
      (match hi with | some h => leafPrims h | none => [])

/-- Number of nodes on a longest root-to-leaf path, i.e. the recursion depth
`Subdivide` needs to build the tree. -/
def depth : BoundingBox → ℕ
  | .mk _ lo hi _ =>
    1 + max (match lo with | some l => depth l | none => 0)
            (match hi with | some h => depth h | none => 0)

/-- Well-formedness needed by `CompileFrom`: every node with an empty
primitive list has both children (otherwise the C++ dereferences a null
`unique_ptr`). -/
def WFb : BoundingBox → Bool
  | .mk _ lo hi ps =>
    if ps = [] then
      match lo, hi with
      | some l, some h => WFb l && WFb h
      | _, _ => false
    else
      true

/-- Number of buffer slots `CompileFrom` appends for a (sub)tree: 12 head
slots per node, plus the children's records for internal nodes, plus the
primitive records for leaves.  Absent children contribute nothing. -/
def compiledSlots : BoundingBox → ℕ
  | .mk _ lo hi ps =>
    if ps = [] then
      12 + (match lo with | some l => compiledSlots l | none => 0)
         + (match hi with | some h => compiledSlots h | none => 0)
    else
      12 + (ps.map (fun p => p.StoreIntoBVH.length)).sum

/-- A step of a root-to-node path: descend to the lower or the higher child. -/
inductive Dir where
  | lo
  | hi
deriving DecidableEq

/-- The node reached from `n` by the path `π` (descending through child
pointers), if it exists. -/
def nodeAt : BoundingBox → List Dir → Option BoundingBox
  | n, [] => some n
  | .mk _ lo _ _, .lo :: rest =>
    match lo with
    | some l => nodeAt l rest
    | none => none
  | .mk _ _ hi _, .hi :: rest =>
    match hi with
    | some h => nodeAt h rest
    | none => none

/-- The quad address at which the record of the node reached by `π` is
emitted, when the record of `n` itself starts at quad `a`: a node's record
occupies 3 quads of head, the lower subtree follows immediately, the higher
subtree follows the lower one.  Children of a node with a non-empty primitive
list are never emitted. -/
def addrAt : BoundingBox → ℕ → List Dir → Option ℕ
  | _, a, [] => some a
  | .mk _ lo _ ps, a, .lo :: rest =>
    match lo with
    | some l => if ps = [] then addrAt l (a + 3) rest else none
    | none => none
  | .mk _ lo hi ps, a, .hi :: rest =>
    match lo, hi with
    | some l, some h =>
        if ps = [] then addrAt h (a + 3 + compiledSlots l / 4) rest else none
    | _, _ => none

/-- Whether the node reached by `π` is a lower child: the root (empty path)
is compiled with `isLower = false`, every other node with the direction of
its last step. -/
def isLowerOf (π : List Dir) : Bool :=
  match π.getLast? with
  | some .lo => true
  | _ => false

/-- The flags word stored in a node's info quad, as assembled by
`CompileFrom`: the `IS_LOWER`/`IS_ROOT` bits, and for leaves additionally
`LEAF` and the truncated primitive count. -/
def flagsWord (isLower isRoot : Bool) (ps : List Prim) : ℕ :=
  let flags := (if isLower then IS_LOWER else 0) ||| (if isRoot then IS_ROOT else 0)
  if ps = [] then flags
  else flags ||| LEAF ||| (ps.length % U32 &&& FLAGS_COMPL)

/-- The layout `CompileFrom` produces, written as a pure two-pass function:
all addresses are computed from subtree sizes up front, so the emitted
record of a node starting at quad `a` stores `a+3` as the lower-child address
and `a+3+` (lower subtree quads) as the higher-child address.
`specCompile n a parent isLower isRoot` is the slot list appended for the
subtree rooted at `n` when its record starts at quad address `a`. -/
def specCompile : BoundingBox → ℕ → ℕ → Bool → Bool → List Slot
  | .mk bb lo hi ps, a, parentAddr, isLower, isRoot =>
    let head := [.F bb.xmin, .F bb.ymin, .F bb.zmin, RGBA_PAD,
                 .F bb.xmax, .F bb.ymax, .F bb.zmax, RGBA_PAD]
    if ps = [] then
      let loSlots := match lo with | some l => compiledSlots l | none => 0
      (head ++ [.U (flagsWord isLower isRoot ps), .U (a + 3), .U (a + 3 + loSlots / 4),
                .U parentAddr]) ++
        ((match lo with | some l => specCompile l (a + 3) a true false | none => []) ++
         (match hi with | some h => specCompile h (a + 3 + loSlots / 4) a false false | none => []))
    else
      (head ++ [.U (flagsWord isLower isRoot ps), RGBA_PAD, RGBA_PAD, .U parentAddr]) ++
        ps.flatMap Prim.StoreIntoBVH

/-- The node dichotomy that actually holds for every tree `Subdivide` builds:
either no children (a leaf; its primitive list may be empty), or an empty
primitive list with both children present (an internal node). -/
def goodNode (m : BoundingBox) : Prop :=
  (m.lower = none ∧ m.higher = none) ∨
  (m.primitives = [] ∧ ∃ l h, m.lower = some l ∧ m.higher = some h)

/-- The dichotomy claimed by the spec: a leaf additionally has a non-empty
primitive list. -/
def strictNode (m : BoundingBox) : Prop :=
  (m.primitives ≠ [] ∧ m.lower = none ∧ m.higher = none) ∨
  (m.primitives = [] ∧ ∃ l h, m.lower = some l ∧ m.higher = some h)

/-- The containment property of a single node: an internal node's extent
contains the union of its children's extents; a leaf's extent contains the
(code's sentinel-initialised) union of its stored primitives' extents. -/
def containOK (m : BoundingBox) : Prop :=
  (∀ l h, m.lower = some l → m.higher = some h → boxContains m.box (boxUnion l.box h.box)) ∧
  (m.lower = none → m.higher = none → boxContains m.box (foldBox m.primitives))

/-- The leaf nodes of a tree: nodes with no children. -/
def leaves (t : BoundingBox) : List BoundingBox :=
  (allNodes t).filter (fun m => m.lower.isNone && m.higher.isNone)

/-- The compile-time arguments (node, quad address, parent address, isLower,
isRoot) of the recursive `CompileFrom`/`specCompile` call that emits the node
reached by a path: children of an internal node at address `a` are emitted at
`a+3` (lower) and `a+3+` lower-subtree-quads (higher), with their parent
address `a`. -/
def pathArgs : BoundingBox → ℕ → ℕ → Bool → Bool → List Dir →
    Option (BoundingBox × ℕ × ℕ × Bool × Bool)
  | n, a, p, il, ir, [] => some (n, a, p, il, ir)
  | .mk _ lo hi ps, a, _, _, _, (d :: rest) =>
    if ps = [] then
      match lo, hi with
      | some l, some h =>
        match d with
        | .lo => pathArgs l (a + 3) a true false rest
        | .hi => pathArgs h (a + 3 + compiledSlots l / 4) a false false rest
      | _, _ => none
    else none

/-- A small concrete well-formed tree used by the compile-claim witnesses:
an internal root with two single-sphere leaves. -/
def wLeafA : BoundingBox :=
  .mk ⟨0, 2, 0, 2, 0, 2⟩ none none [Prim.sphere ⟨1, 1, 1⟩ 1]

/-- Second leaf of the witness tree. -/
def wLeafB : BoundingBox :=
  .mk ⟨10, 12, 10, 12, 10, 12⟩ none none [Prim.sphere ⟨11, 11, 11⟩ 1]

/-- Root of the witness tree. -/
def wTree : BoundingBox := .mk ⟨0, 12, 0, 12, 0, 12⟩ (some wLeafA) (some wLeafB) []

/-- The buffer the compiler emits for `wTree`. -/
def wOut : List Slot := specCompile wTree 0 0 false true

instance : RightCommutative updateBox :=
  ⟨fun b p q => by simp [updateBox, min_right_comm, sup_right_comm]⟩

theorem subrange_eq_drop_of_take (l : List Prim) (frm tto : ℕ) :
    subrange l frm tto = (l.take tto).drop frm := by
  simp [subrange, List.drop_take]

theorem subrange_length (l : List Prim) (frm tto : ℕ) (h1 : frm ≤ tto) (h2 : tto ≤ l.length) :
    (subrange l frm tto).length = tto - frm := by
  simp [subrange, List.length_take, List.length_drop]
  omega

theorem subrange_full (l : List Prim) : subrange l 0 l.length = l := by
  simp [subrange]

theorem sortRange_length (l : List Prim) (frm tto : ℕ) (le : Prim → Prim → Bool)
    (h1 : frm ≤ tto) (h2 : tto ≤ l.length) :
    (sortRange l frm tto le).length = l.length := by
  simp [sortRange, List.length_mergeSort, subrange_length l frm tto h1 h2,
    List.length_take, List.length_drop]
  omega

theorem sortRange_take (l : List Prim) (frm tto : ℕ) (le : Prim → Prim → Bool)
    (h2 : tto ≤ l.length) (h1 : frm ≤ tto) :
    (sortRange l frm tto le).take frm = l.take frm := by
  unfold sortRange
  rw [List.append_assoc]
  exact List.take_left' (by simp [List.length_take]; omega)

theorem sortRange_drop (l : List Prim) (frm tto : ℕ) (le : Prim → Prim → Bool)
    (h1 : frm ≤ tto) (h2 : tto ≤ l.length) :
    (sortRange l frm tto le).drop tto = l.drop tto := by
  unfold sortRange
  rw [show l.take frm ++ (subrange l frm tto).mergeSort le ++ l.drop tto
      = (l.take frm ++ (subrange l frm tto).mergeSort le) ++ l.drop tto by
    simp [List.append_assoc]]
  exact List.drop_left' (by
    simp [List.length_take, List.length_mergeSort, subrange_length l frm tto h1 h2]; omega)

theorem sortRange_subrange (l : List Prim) (frm tto : ℕ) (le : Prim → Prim → Bool)
    (h1 : frm ≤ tto) (h2 : tto ≤ l.length) :
    subrange (sortRange l frm tto le) frm tto = (subrange l frm tto).mergeSort le := by
  show ((sortRange l frm tto le).drop frm).take (tto - frm) = _
  unfold sortRange
  rw [List.append_assoc, List.drop_left' (by rw [List.length_take]; omega),
    List.take_left' (by rw [List.length_mergeSort, subrange_length l frm tto h1 h2])]

theorem axisScan_fst (l : List Prim) (frm tto : ℕ) (bb : Box) :
    (axisSortAndScan l frm tto bb).1 = l ∨
      ∃ le, (axisSortAndScan l frm tto bb).1 = sortRange l frm tto le := by
  unfold axisSortAndScan
  dsimp only
  split_ifs
  · exact Or.inr ⟨_, rfl⟩
  · exact Or.inr ⟨_, rfl⟩
  · exact Or.inr ⟨_, rfl⟩
  · exact Or.inl rfl

theorem axisScan_snd (l : List Prim) (frm tto : ℕ) (bb : Box)
    (h1 : frm ≤ tto) (h2 : tto ≤ l.length) :
    frm ≤ (axisSortAndScan l frm tto bb).2 ∧ (axisSortAndScan l frm tto bb).2 ≤ tto := by
  unfold axisSortAndScan
  dsimp only
  split_ifs
  · refine ⟨Nat.le_add_right _ _, ?_⟩
    have hl := sortRange_subrange l frm tto (fun p1 p2 => decide (centerX p1 < centerX p2)) h1 h2
    have hw := (List.takeWhile_sublist
      (fun p => decide ((1/2) * (p.GetXmin + p.GetXmax) ≤ bb.xmin + (1/2) * (bb.xmax - bb.xmin)))
      (l := subrange (sortRange l frm tto
        (fun p1 p2 => decide (centerX p1 < centerX p2))) frm tto)).length_le
    rw [hl, List.length_mergeSort, subrange_length l frm tto h1 h2] at hw
    rw [hl]
    omega
  · refine ⟨Nat.le_add_right _ _, ?_⟩
    have hl := sortRange_subrange l frm tto (fun p1 p2 => decide (centerY p1 < centerY p2)) h1 h2
    have hw := (List.takeWhile_sublist
      (fun p => decide ((1/2) * (p.GetYmin + p.GetYmax) ≤ bb.ymin + (1/2) * (bb.ymax - bb.ymin)))
      (l := subrange (sortRange l frm tto
        (fun p1 p2 => decide (centerY p1 < centerY p2))) frm tto)).length_le
    rw [hl, List.length_mergeSort, subrange_length l frm tto h1 h2] at hw
    rw [hl]
    omega
  · refine ⟨Nat.le_add_right _ _, ?_⟩
    have hl := sortRange_subrange l frm tto (fun p1 p2 => decide (centerZ p1 < centerZ p2)) h1 h2
    have hw := (List.takeWhile_sublist
      (fun p => decide ((1/2) * (p.GetZmin + p.GetZmax) ≤ bb.zmin + (1/2) * (bb.zmax - bb.zmin)))
      (l := subrange (sortRange l frm tto
        (fun p1 p2 => decide (centerZ p1 < centerZ p2))) frm tto)).length_le
    rw [hl, List.length_mergeSort, subrange_length l frm tto h1 h2] at hw
    rw [hl]
    omega
  · exact ⟨le_refl frm, h1⟩

theorem guardIdx_bounds (frm tto si : ℕ) (h1 : frm ≤ si) (h2 : si ≤ tto) :
    frm ≤ guardIdx frm tto si ∧ guardIdx frm tto si ≤ tto := by
  unfold guardIdx
  split_ifs <;> omega

theorem guardIdx_bounds2 (frm tto si : ℕ) (h1 : frm ≤ si) (h2 : si ≤ tto) :
    frm ≤ guardIdx frm tto si ∧ guardIdx frm tto si ≤ tto := by
  unfold guardIdx
  split_ifs <;> omega

theorem foldBox_perm {A B : List Prim} (h : A.Perm B) : foldBox A = foldBox B :=
  h.foldl_eq sentinelBox

theorem updateBox_boxUnion (b c : Box) (p : Prim) :
    updateBox (boxUnion b c) p = boxUnion b (updateBox c p) := by
  simp [updateBox, boxUnion, min_assoc, max_assoc]

theorem foldl_updateBox_boxUnion (L : List Prim) (b c : Box) :
    L.foldl updateBox (boxUnion b c) = boxUnion b (L.foldl updateBox c) := by
  induction L generalizing c with
  | nil => rfl
  | cons p L ih => simp only [List.foldl_cons, updateBox_boxUnion, ih]

theorem foldl_updateBox_within (L : List Prim) (b : Box) :
    (L.foldl updateBox b).xmin ≤ b.xmin ∧ b.xmax ≤ (L.foldl updateBox b).xmax ∧
    (L.foldl updateBox b).ymin ≤ b.ymin ∧ b.ymax ≤ (L.foldl updateBox b).ymax ∧
    (L.foldl updateBox b).zmin ≤ b.zmin ∧ b.zmax ≤ (L.foldl updateBox b).zmax := by
  induction L generalizing b with
  | nil => simp
  | cons p L ih =>
    simp only [List.foldl_cons]
    obtain ⟨i1, i2, i3, i4, i5, i6⟩ := ih (updateBox b p)
    unfold updateBox at i1 i2 i3 i4 i5 i6
    exact ⟨le_trans i1 (min_le_left _ _), le_trans (le_max_left _ _) i2,
      le_trans i3 (min_le_left _ _), le_trans (le_max_left _ _) i4,
      le_trans i5 (min_le_left _ _), le_trans (le_max_left _ _) i6⟩

theorem boxUnion_sentinel_right (X : Box)
    (h1 : X.xmin ≤ sentinelBox.xmin) (h2 : sentinelBox.xmax ≤ X.xmax)
    (h3 : X.ymin ≤ sentinelBox.ymin) (h4 : sentinelBox.ymax ≤ X.ymax)
    (h5 : X.zmin ≤ sentinelBox.zmin) (h6 : sentinelBox.zmax ≤ X.zmax) :
    boxUnion X sentinelBox = X := by
  obtain ⟨a, b, c, d, e, f⟩ := X
  simp_all [boxUnion, sentinelBox]

theorem foldBox_append (A B : List Prim) :
    foldBox (A ++ B) = boxUnion (foldBox A) (foldBox B) := by
  unfold foldBox
  rw [List.foldl_append]
  obtain ⟨h1, h2, h3, h4, h5, h6⟩ := foldl_updateBox_within A sentinelBox
  conv_lhs => rw [← boxUnion_sentinel_right (A.foldl updateBox sentinelBox) h1 h2 h3 h4 h5 h6]
  rw [foldl_updateBox_boxUnion]

theorem subrange_split (l : List Prim) (frm mid tto : ℕ) (h1 : frm ≤ mid) (h2 : mid ≤ tto) :
    subrange l frm tto = subrange l frm mid ++ subrange l mid tto := by
  unfold subrange
  rw [show tto - frm = (mid - frm) + (tto - mid) by omega, List.take_add]
  congr 1
  rw [List.drop_drop, show frm + (mid - frm) = mid by omega]

@[simp]
theorem BoundingBox.box_mk (b : Box) (lo hi : Option BoundingBox) (ps : List Prim) :
    (BoundingBox.mk b lo hi ps).box = b := rfl

@[simp]
theorem BoundingBox.lower_mk (b : Box) (lo hi : Option BoundingBox) (ps : List Prim) :
    (BoundingBox.mk b lo hi ps).lower = lo := rfl

@[simp]
theorem BoundingBox.higher_mk (b : Box) (lo hi : Option BoundingBox) (ps : List Prim) :
    (BoundingBox.mk b lo hi ps).higher = hi := rfl

@[simp]
theorem BoundingBox.primitives_mk (b : Box) (lo hi : Option BoundingBox) (ps : List Prim) :
    (BoundingBox.mk b lo hi ps).primitives = ps := rfl

theorem subdivide_main (ps : List Prim) (frm tto cl ml mp : ℕ) :
    frm ≤ tto → tto ≤ ps.length →
    (Subdivide ps frm tto cl ml mp).2.length = ps.length ∧
    (Subdivide ps frm tto cl ml mp).2.take frm = ps.take frm ∧
    (Subdivide ps frm tto cl ml mp).2.drop tto = ps.drop tto ∧
    (subrange (Subdivide ps frm tto cl ml mp).2 frm tto).Perm (subrange ps frm tto) ∧
    leafPrims (Subdivide ps frm tto cl ml mp).1 = subrange (Subdivide ps frm tto cl ml mp).2 frm tto ∧
    (Subdivide ps frm tto cl ml mp).1.box = foldBox (subrange ps frm tto) := by
  induction ps, frm, tto, cl, ml, mp using Subdivide.induct with
  | case1 ps frm tto cl ml mp h =>
    intro h1 h2
    rw [Subdivide, dif_pos h]
    exact ⟨rfl, rfl, rfl, List.Perm.refl _, by simp [leafPrims], rfl⟩
  | case2 ps frm tto cl ml mp bbv h ssv siv lov ihA ihB ihC =>
    intro h1 h2
    clear ihB
    unfold lov siv ssv bbv at ihA ihC
    rw [Subdivide]
    simp only [dif_neg h]
    set B := foldBox (subrange ps frm tto) with hB
    set S := axisSortAndScan ps frm tto B with hS
    set I := guardIdx frm tto S.2 with hI
    set Q1 := Subdivide S.1 frm I (cl + 1) ml mp with hQ1
    set Q2 := Subdivide Q1.2 I tto (cl + 1) ml mp with hQ2
    obtain ⟨hb1, hb2⟩ := axisScan_snd ps frm tto B h1 h2
    obtain ⟨hg1, hg2⟩ := guardIdx_bounds2 frm tto S.2 hb1 hb2
    have hsfacts : S.1.length = ps.length ∧ S.1.take frm = ps.take frm ∧
        S.1.drop tto = ps.drop tto ∧ (subrange S.1 frm tto).Perm (subrange ps frm tto) := by
      rcases axisScan_fst ps frm tto B with hE | ⟨le, hE⟩
      · rw [hE]
        exact ⟨rfl, rfl, rfl, List.Perm.refl _⟩
      · rw [hE]
        exact ⟨sortRange_length ps frm tto le h1 h2, sortRange_take ps frm tto le h2 h1,
          sortRange_drop ps frm tto le h1 h2,
          by rw [sortRange_subrange ps frm tto le h1 h2]; exact List.mergeSort_perm _ le⟩
    obtain ⟨hs_len, hs_take, hs_drop, hs_perm⟩ := hsfacts
    obtain ⟨l1, l2, l3, l4, l5, l6⟩ := ihA hg1 (by omega)
    obtain ⟨m1, m2, m3, m4, m5, m6⟩ := ihC hg2 (by omega)
    have e1 : frm ⊓ I = frm := min_eq_left hg1
    have e2 : I + (tto - I) = tto := by omega
    have t2 : Q2.2.take frm = Q1.2.take frm := by
      calc Q2.2.take frm = (Q2.2.take I).take frm := by rw [List.take_take, e1]
        _ = (Q1.2.take I).take frm := by rw [m2]
        _ = Q1.2.take frm := by rw [List.take_take, e1]
    have d2 : Q1.2.drop tto = S.1.drop tto := by
      calc Q1.2.drop tto = (Q1.2.drop I).drop (tto - I) := by rw [List.drop_drop, e2]
        _ = (S.1.drop I).drop (tto - I) := by rw [l3]
        _ = S.1.drop tto := by rw [List.drop_drop, e2]
    have sub21 : subrange Q2.2 frm I = subrange Q1.2 frm I := by
      rw [subrange_eq_drop_of_take, subrange_eq_drop_of_take, m2]
    have sub1s : subrange Q1.2 I tto = subrange S.1 I tto := by
      unfold subrange
      rw [l3]
    have split2 : subrange Q2.2 frm tto = subrange Q2.2 frm I ++ subrange Q2.2 I tto :=
      subrange_split _ _ _ _ hg1 hg2
    have splitS : subrange S.1 frm tto = subrange S.1 frm I ++ subrange S.1 I tto :=
      subrange_split _ _ _ _ hg1 hg2
    refine ⟨by omega, ?_, ?_, ?_, ?_, rfl⟩
    · show Q2.2.take frm = ps.take frm
      rw [t2, l2, hs_take]
    · show Q2.2.drop tto = ps.drop tto
      rw [m3, d2, hs_drop]
    · show (subrange Q2.2 frm tto).Perm (subrange ps frm tto)
      have mm : (subrange Q2.2 I tto).Perm (subrange S.1 I tto) := by
        rw [← sub1s]
        exact m4
      have happ : (subrange Q1.2 frm I ++ subrange Q2.2 I tto).Perm (subrange S.1 frm tto) := by
        rw [splitS]
        exact List.Perm.append l4 mm
      rw [split2, sub21]
      exact happ.trans hs_perm
    · show leafPrims (BoundingBox.mk B (some Q1.1) (some Q2.1) []) = subrange Q2.2 frm tto
      simp only [leafPrims, List.nil_append]
      rw [l5, m5, split2, sub21]

theorem subdivide_structure (ps : List Prim) (frm tto cl ml mp : ℕ) :
    ∀ m ∈ allNodes (Subdivide ps frm tto cl ml mp).1, goodNode m := by
  induction ps, frm, tto, cl, ml, mp using Subdivide.induct with
  | case1 ps frm tto cl ml mp h =>
    intro m hm
    rw [Subdivide, dif_pos h] at hm
    simp only [allNodes, List.mem_cons, List.mem_append] at hm
    rcases hm with hm | hm
    · subst hm
      exact Or.inl ⟨rfl, rfl⟩
    · simp at hm
  | case2 ps frm tto cl ml mp bbv h ssv siv lov ihA ihB ihC =>
    intro m hm
    clear ihB
    unfold lov siv ssv bbv at ihA ihC
    rw [Subdivide] at hm
    simp only [dif_neg h] at hm
    simp only [allNodes, List.mem_cons, List.mem_append] at hm
    rcases hm with hm | hm | hm
    · subst hm
      exact Or.inr ⟨rfl, _, _, rfl, rfl⟩
    · exact ihA m hm
    · exact ihC m hm

theorem boxContains_refl (a : Box) : boxContains a a :=
  ⟨le_refl _, le_refl _, le_refl _, le_refl _, le_refl _, le_refl _⟩

theorem subdivide_containment (ps : List Prim) (frm tto cl ml mp : ℕ) :
    frm ≤ tto → tto ≤ ps.length →
    ∀ m ∈ allNodes (Subdivide ps frm tto cl ml mp).1, containOK m := by
  induction ps, frm, tto, cl, ml, mp using Subdivide.induct with
  | case1 ps frm tto cl ml mp h =>
    intro h1 h2 m hm
    rw [Subdivide, dif_pos h] at hm
    simp only [allNodes, List.mem_cons, List.mem_append] at hm
    rcases hm with hm | hm
    · subst hm
      constructor
      · intro l hh hcl hch
        simp at hcl
      · intro _ _
        exact boxContains_refl _
    · simp at hm
  | case2 ps frm tto cl ml mp bbv h ssv siv lov ihA ihB ihC =>
    intro h1 h2 m hm
    clear ihB
    unfold lov siv ssv bbv at ihA ihC
    rw [Subdivide] at hm
    simp only [dif_neg h] at hm
    set B := foldBox (subrange ps frm tto) with hB
    set S := axisSortAndScan ps frm tto B with hS
    set I := guardIdx frm tto S.2 with hI
    set Q1 := Subdivide S.1 frm I (cl + 1) ml mp with hQ1
    set Q2 := Subdivide Q1.2 I tto (cl + 1) ml mp with hQ2
    obtain ⟨hb1, hb2⟩ := axisScan_snd ps frm tto B h1 h2
    obtain ⟨hg1, hg2⟩ := guardIdx_bounds2 frm tto S.2 hb1 hb2
    have hsfacts : S.1.length = ps.length ∧ (subrange S.1 frm tto).Perm (subrange ps frm tto) := by
      rcases axisScan_fst ps frm tto B with hE | ⟨le, hE⟩
      · rw [hE]
        exact ⟨rfl, List.Perm.refl _⟩
      · rw [hE]
        exact ⟨sortRange_length ps frm tto le h1 h2,
          by rw [sortRange_subrange ps frm tto le h1 h2]; exact List.mergeSort_perm _ le⟩
    obtain ⟨hs_len, hs_perm⟩ := hsfacts
    have l123 := subdivide_main S.1 frm I (cl + 1) ml mp hg1 (by omega)
    rw [← hQ1] at l123
    obtain ⟨l1, _, l3, _, _, l6⟩ := l123
    have m123 := subdivide_main Q1.2 I tto (cl + 1) ml mp hg2 (by omega)
    rw [← hQ2] at m123
    obtain ⟨_, _, _, _, _, m6⟩ := m123
    simp only [allNodes, List.mem_cons, List.mem_append] at hm
    rcases hm with hm | hm | hm
    · subst hm
      constructor
      · intro l hh hcl hch
        simp only [BoundingBox.lower_mk, BoundingBox.higher_mk, Option.some.injEq] at hcl hch
        subst hcl
        subst hch
        have hq2box : Q2.1.box = foldBox (subrange S.1 I tto) := by
          rw [m6]
          unfold subrange
          rw [l3]
        have hroot : B = boxUnion Q1.1.box Q2.1.box := by
          rw [l6, hq2box, ← foldBox_append, ← subrange_split S.1 frm I tto hg1 hg2, hB,
            foldBox_perm hs_perm]
        simp only [BoundingBox.box_mk]
        rw [hroot]
        exact boxContains_refl _
      · intro hcl
        simp at hcl
    · exact ihA hg1 (by omega) m hm
    · exact ihC hg2 (by omega) m hm

theorem subdivide_depth (ps : List Prim) (frm tto cl ml mp : ℕ) :
    cl < ml → ml ≤ U32 →
    depth (Subdivide ps frm tto cl ml mp).1 ≤ ml - cl := by
  induction ps, frm, tto, cl, ml, mp using Subdivide.induct with
  | case1 ps frm tto cl ml mp h =>
    intro hcl hml
    rw [Subdivide, dif_pos h]
    show depth (BoundingBox.mk _ none none _) ≤ ml - cl
    simp only [depth]
    omega
  | case2 ps frm tto cl ml mp bbv h ssv siv lov ihA ihB ihC =>
    intro hcl hml
    clear ihB
    unfold lov siv ssv bbv at ihA ihC
    rw [Subdivide]
    simp only [dif_neg h]
    have hnext : cl + 1 < ml := by
      rcases Nat.lt_or_ge (cl + 1) ml with hlt | hge
      · exact hlt
      · exfalso
        have hcleq : cl = ml - 1 := by omega
        apply h
        right
        subst hcleq
        unfold U32
        omega
    have dA := ihA hnext hml
    have dC := ihC hnext hml
    show depth (BoundingBox.mk _ (some _) (some _) []) ≤ ml - cl
    simp only [depth]
    omega

theorem allNodes_mk (b : Box) (lo hi : Option BoundingBox) (ps : List Prim) :
    allNodes (.mk b lo hi ps) =
      .mk b lo hi ps ::
        ((match lo with | some l => allNodes l | none => []) ++
         (match hi with | some h => allNodes h | none => [])) := by
  rw [allNodes.eq_def]

theorem leaves_flatten : ∀ (t : BoundingBox), (∀ m ∈ allNodes t, goodNode m) →
    ((leaves t).map (fun m => m.primitives)).flatten = leafPrims t
  | .mk b lo hi ps, hg => by
    have hroot : goodNode (.mk b lo hi ps) := hg _ (by rw [allNodes_mk]; exact List.mem_cons_self _ _)
    match lo, hi with
    | none, none =>
      simp [leaves, allNodes, leafPrims]
    | some l, some h =>
      have hps : ps = [] := by
        rcases hroot with ⟨hl, _⟩ | ⟨hps, _⟩
        · simp at hl
        · exact hps
      have hgl : ∀ m ∈ allNodes l, goodNode m := by
        intro m hm
        exact hg m (by rw [allNodes_mk]; exact List.mem_cons_of_mem _ (List.mem_append_left _ hm))
      have hgh : ∀ m ∈ allNodes h, goodNode m := by
        intro m hm
        exact hg m (by rw [allNodes_mk]; exact List.mem_cons_of_mem _ (List.mem_append_right _ hm))
      have ihl := leaves_flatten l hgl
      have ihh := leaves_flatten h hgh
      simp only [leaves, allNodes_mk, List.filter_cons, List.filter_append] at ihl ihh ⊢
      simp only [BoundingBox.lower_mk, BoundingBox.higher_mk, Option.isNone_some,
        Bool.false_and, Bool.false_eq_true, if_false, List.map_append, List.flatten_append,
        leafPrims, hps, List.nil_append]
      rw [ihl, ihh]
    | some l, none =>
      exfalso
      rcases hroot with ⟨hl, _⟩ | ⟨_, _, _, _, hh⟩
      · simp at hl
      · simp at hh
    | none, some h =>
      exfalso
      rcases hroot with ⟨_, hh⟩ | ⟨_, _, _, hl, _⟩
      · simp at hh
      · simp at hl

/-- C9: the constructor only reorders the primitive vector: the vector after
`BoundingVolumesHierarchy` construction is a permutation of the input. -/
theorem gpuartC9_construction_permutes (ps : List Prim) (ml mp : ℕ) :
    ((BVHConstruct ps ml mp).2).Perm ps := by
  have H := subdivide_main ps 0 ps.length 0 ml mp (Nat.zero_le _) (le_refl _)
  set out := Subdivide ps 0 ps.length 0 ml mp with hout
  obtain ⟨L1, _, _, P4, _, _⟩ := H
  rw [subrange_full] at P4
  rw [← L1, subrange_full] at P4
  exact P4

theorem bvh_empty_eval : BVHConstruct [] 1 1 = (.mk sentinelBox none none [], []) := by
  unfold BVHConstruct
  rw [Subdivide, dif_pos (Or.inl (by norm_num))]
  rfl

/-- C3 counterexample: on the empty input the root node is a leaf with an
empty primitive list and no children, satisfying neither arm of the claimed
dichotomy. -/
theorem gpuartC3_counterexample :
    ¬ ∀ m ∈ allNodes (BVHConstruct [] 1 1).1, strictNode m := by
  intro hall
  have hroot := hall (BoundingBox.mk sentinelBox none none [])
    (by rw [bvh_empty_eval]; simp [allNodes_mk])
  rcases hroot with ⟨hne, _, _⟩ | ⟨_, _, _, hl, _⟩
  · simp at hne
  · simp at hl

/-- C3 (amended): every node of a tree built by `Subdivide` either has no
children (a leaf, whose primitive list may be empty), or has an empty
primitive list and exactly two children — never primitives and children
together, never exactly one child. -/
theorem gpuartC3_amended_dichotomy (ps : List Prim) (ml mp : ℕ)
    (hml : 1 ≤ ml) (hmp : 1 ≤ mp) :
    ∀ m ∈ allNodes (BVHConstruct ps ml mp).1, goodNode m :=
  subdivide_structure ps 0 ps.length 0 ml mp

theorem gpuartC3_amended_dichotomy_witness :
    (1 ≤ 1 ∧ 1 ≤ 1) ∧
      ∀ m ∈ allNodes (BVHConstruct [Prim.sphere ⟨0, 0, 0⟩ 1] 1 1).1, goodNode m :=
  ⟨⟨le_refl 1, le_refl 1⟩,
    gpuartC3_amended_dichotomy [Prim.sphere ⟨0, 0, 0⟩ 1] 1 1 (le_refl 1) (le_refl 1)⟩

/-- C4: in every tree built over a non-empty input, each internal node's
extent contains the union of its children's extents, each leaf's extent
contains the union of its stored primitives' extents, and the root extent
equals the (sentinel-initialised) union of all input primitives' extents. -/
theorem gpuartC4_containment (ps : List Prim) (ml mp : ℕ) (hne : ps ≠ []) :
    (∀ m ∈ allNodes (BVHConstruct ps ml mp).1, containOK m) ∧
    (BVHConstruct ps ml mp).1.box = foldBox ps := by
  constructor
  · exact subdivide_containment ps 0 ps.length 0 ml mp (Nat.zero_le _) (le_refl _)
  · obtain ⟨_, _, _, _, _, hbox⟩ :=
      subdivide_main ps 0 ps.length 0 ml mp (Nat.zero_le _) (le_refl _)
    rw [subrange_full] at hbox
    exact hbox

theorem gpuartC4_containment_witness :
    ([Prim.sphere ⟨0, 0, 0⟩ 1] ≠ []) ∧
      ((∀ m ∈ allNodes (BVHConstruct [Prim.sphere ⟨0, 0, 0⟩ 1] 1 1).1, containOK m) ∧
       (BVHConstruct [Prim.sphere ⟨0, 0, 0⟩ 1] 1 1).1.box =
         foldBox [Prim.sphere ⟨0, 0, 0⟩ 1]) :=
  ⟨by simp, gpuartC4_containment [Prim.sphere ⟨0, 0, 0⟩ 1] 1 1 (by simp)⟩

/-- C6: the primitive lists stored at the leaves together hold exactly the
input primitives: the lengths of the leaves' lists sum to the input length,
and their concatenation is a permutation of the input (each handle in
exactly one leaf). -/
theorem gpuartC6_leaf_conservation (ps : List Prim) (ml mp : ℕ) :
    ((leaves (BVHConstruct ps ml mp).1).map (fun m => m.primitives.length)).sum = ps.length ∧
    (((leaves (BVHConstruct ps ml mp).1).map (fun m => m.primitives)).flatten).Perm ps := by
  have hflat := leaves_flatten (BVHConstruct ps ml mp).1
    (subdivide_structure ps 0 ps.length 0 ml mp)
  have H := subdivide_main ps 0 ps.length 0 ml mp (Nat.zero_le _) (le_refl _)
  set out := Subdivide ps 0 ps.length 0 ml mp with hout
  obtain ⟨L1, _, _, P4, L5, _⟩ := H
  rw [subrange_full] at P4
  rw [← L1, subrange_full] at P4 L5
  have hperm : (((leaves (BVHConstruct ps ml mp).1).map
      (fun m => m.primitives)).flatten).Perm ps := by
    rw [hflat]
    show (leafPrims out.1).Perm ps
    rw [L5]
    exact P4
  refine ⟨?_, hperm⟩
  have hmm : ((leaves (BVHConstruct ps ml mp).1).map (fun m => m.primitives.length)) =
      (((leaves (BVHConstruct ps ml mp).1).map (fun m => m.primitives)).map List.length) := by
    rw [List.map_map]
    rfl
  rw [hmm, ← List.length_flatten]
  exact hperm.length_eq

/-- C7: for `maxLevels ≥ 1` (as a C++ `unsigned`, so `< 2^32`),
`minPrimitivesPerNode ≥ 1` and a non-empty input, each recursive call of
`Subdivide` increases the level by one and the leaf test fires at
`maxLevels - 1` at the latest, so the recursion terminates with depth at
most `maxLevels` (the totality of the Lean model itself is the termination
argument). -/
theorem gpuartC7_termination_depth (ps : List Prim) (ml mp : ℕ)
    (hml : 1 ≤ ml) (hmlu : ml < U32) (hmp : 1 ≤ mp) (hne : ps ≠ []) :
    depth (BVHConstruct ps ml mp).1 ≤ ml := by
  have h := subdivide_depth ps 0 ps.length 0 ml mp (by omega) (by omega)
  simpa using h

theorem gpuartC7_termination_depth_witness :
    (1 ≤ 3 ∧ 3 < U32 ∧ 1 ≤ 1 ∧
      [Prim.sphere ⟨0, 0, 0⟩ 0, Prim.sphere ⟨0, 0, 0⟩ 0, Prim.sphere ⟨0, 0, 0⟩ 0] ≠ []) ∧
    depth (BVHConstruct
      [Prim.sphere ⟨0, 0, 0⟩ 0, Prim.sphere ⟨0, 0, 0⟩ 0, Prim.sphere ⟨0, 0, 0⟩ 0] 3 1).1 ≤ 3 :=
  ⟨⟨by norm_num, by norm_num [U32], by norm_num, by simp⟩,
    gpuartC7_termination_depth _ 3 1 (by norm_num) (by norm_num [U32]) (by norm_num) (by simp)⟩

theorem set_append_left (A B : List Slot) (i : ℕ) (x : Slot) (h : i < A.length) :
    (A ++ B).set i x = A.set i x ++ B := by
  rw [List.set_append, if_pos h]

theorem set_append_right (A B : List Slot) (i : ℕ) (x : Slot) (h : A.length ≤ i) :
    (A ++ B).set i x = A ++ B.set (i - A.length) x := by
  rw [List.set_append, if_neg (by omega)]

theorem storeIntoBVH_length (p : Prim) :
    p.StoreIntoBVH.length = 8 ∨ p.StoreIntoBVH.length = 12 ∨
    p.StoreIntoBVH.length = 16 ∨ p.StoreIntoBVH.length = 20 := by
  cases p <;> simp [Prim.StoreIntoBVH, Prim.StoreDataIntoBVH]

theorem storeIntoBVH_dvd (p : Prim) : 4 ∣ p.StoreIntoBVH.length := by
  rcases storeIntoBVH_length p with h | h | h | h <;> rw [h] <;> norm_num

theorem flatMap_store_dvd (ps : List Prim) : 4 ∣ (ps.flatMap Prim.StoreIntoBVH).length := by
  induction ps with
  | nil => simp
  | cons p ps ih =>
    rw [List.flatMap_cons, List.length_append]
    exact Nat.dvd_add (storeIntoBVH_dvd p) ih

theorem compiledSlots_dvd : ∀ n : BoundingBox, 4 ∣ compiledSlots n
  | .mk bb lo hi ps => by
    rw [compiledSlots.eq_def]
    dsimp only
    split_ifs
    · have dl : 4 ∣ (match lo with | some l => compiledSlots l | none => 0) := by
        match lo with
        | some l => exact compiledSlots_dvd l
        | none => simp
      have dh : 4 ∣ (match hi with | some h => compiledSlots h | none => 0) := by
        match hi with
        | some h => exact compiledSlots_dvd h
        | none => simp
      omega
    · have h2 := flatMap_store_dvd ps
      rw [List.length_flatMap] at h2
      have : 4 ∣ (ps.map (fun p => p.StoreIntoBVH.length)).sum := h2
      omega

theorem compiledSlots_ge (n : BoundingBox) : 12 ≤ compiledSlots n := by
  match n with
  | .mk bb lo hi ps =>
    rw [compiledSlots.eq_def]
    dsimp only
    split_ifs <;> omega

theorem specCompile_length : ∀ (n : BoundingBox) (a pa : ℕ) (il ir : Bool),
    (specCompile n a pa il ir).length = compiledSlots n
  | .mk bb lo hi ps, a, pa, il, ir => by
    rw [specCompile.eq_def, compiledSlots.eq_def]
    dsimp only
    split_ifs
    · simp only [List.length_append, List.length_cons, List.length_nil]
      have el : (match lo with | some l => specCompile l (a + 3) a true false | none => []).length
          = (match lo with | some l => compiledSlots l | none => 0) := by
        match lo with
        | some l => exact specCompile_length l (a + 3) a true false
        | none => rfl
      have eh : ∀ b : ℕ, (match hi with | some h => specCompile h b a false false | none => []).length
          = (match hi with | some h => compiledSlots h | none => 0) := by
        intro b
        match hi with
        | some h => exact specCompile_length h b a false false
        | none => rfl
      rw [el, eh]
      omega
    · simp only [List.length_append, List.length_cons, List.length_nil, List.length_flatMap]
      have : (List.map (List.length ∘ Prim.StoreIntoBVH) ps).sum
          = (ps.map (fun p => p.StoreIntoBVH.length)).sum := rfl
      omega

theorem WFb_mk (bb : Box) (lo hi : Option BoundingBox) (ps : List Prim) :
    WFb (.mk bb lo hi ps) = true ↔
      (ps = [] → ∃ l h, lo = some l ∧ hi = some h ∧ WFb l = true ∧ WFb h = true) := by
  rw [WFb.eq_def]
  dsimp only
  split_ifs with hps
  · cases lo <;> cases hi <;> simp [hps, Bool.and_eq_true]
  · simp [hps]

theorem flagsWord_nil (il ir : Bool) :
    flagsWord il ir [] = ((if il then IS_LOWER else 0) ||| (if ir then IS_ROOT else 0)) := by
  rw [flagsWord]
  simp

set_option maxHeartbeats 2000000 in
theorem compileFrom_spec : ∀ (n : BoundingBox) (ct : List Slot) (pa : ℕ) (il ir : Bool),
    WFb n = true → 4 ∣ ct.length → ct.length + compiledSlots n ≤ 2 ^ 31 →
    CompileFrom n ct pa il ir = some (ct ++ specCompile n (ct.length / 4) pa il ir)
  | .mk bb lo hi ps, ct, pa, il, ir => by
    intro hwf hdvd hbound
    rw [CompileFrom.eq_def, specCompile.eq_def]
    dsimp only
    by_cases hps : ps = []
    · subst hps
      rw [if_pos rfl, if_pos rfl]
      rw [WFb_mk] at hwf
      obtain ⟨l, h, rfl, rfl, hwfl, hwfh⟩ := hwf rfl
      have hcs : compiledSlots (BoundingBox.mk bb (some l) (some h) []) =
          12 + compiledSlots l + compiledSlots h := by
        rw [compiledSlots.eq_def]
        simp
      rw [hcs] at hbound
      have hdl := compiledSlots_dvd l
      have hdh := compiledSlots_dvd h
      have hgel := compiledSlots_ge l
      have hgeh := compiledSlots_ge h
      dsimp only
      set H8 := [Slot.F bb.xmin, Slot.F bb.ymin, Slot.F bb.zmin, RGBA_PAD,
        Slot.F bb.xmax, Slot.F bb.ymax, Slot.F bb.zmax, RGBA_PAD] with hH8
      set F0 := (if il = true then IS_LOWER else 0) ||| (if ir = true then IS_ROOT else 0) with hF0
      have hH8len : H8.length = 8 := by rw [hH8]; rfl
      have hU32 : U32 = 4294967296 := rfl
      have hna : ct.length / 4 % U32 = ct.length / 4 := by
        rw [hU32] at *
        omega
      rw [hna]
      have lenBuf2 : (ct ++ H8 ++ [Slot.U F0]).length = ct.length + 9 := by
        simp only [List.length_append, List.length_cons, List.length_nil, hH8len]
      have lenBuf3 : (ct ++ H8 ++ [Slot.U F0] ++ [Slot.F 0]).length = ct.length + 10 := by
        simp only [List.length_append, List.length_cons, List.length_nil, hH8len]
      have lenBuf4 : (ct ++ H8 ++ [Slot.U F0] ++ [Slot.F 0] ++ [Slot.F 0] ++ [Slot.U pa]).length
          = ct.length + 12 := by
        simp only [List.length_append, List.length_cons, List.length_nil, hH8len]
      rw [lenBuf2, lenBuf3, lenBuf4]
      have m9 : (ct.length + 9) % U32 = ct.length + 9 := by rw [hU32] at *; omega
      have m10 : (ct.length + 10) % U32 = ct.length + 10 := by rw [hU32] at *; omega
      have d12 : (ct.length + 12) / 4 % U32 = ct.length / 4 + 3 := by rw [hU32] at *; omega
      rw [m9, m10, d12]
      have hT : ct ++ H8 ++ [Slot.U F0] ++ [Slot.F 0] ++ [Slot.F 0] ++ [Slot.U pa]
          = ct ++ (H8 ++ [Slot.U F0, Slot.F 0, Slot.F 0, Slot.U pa]) := by
        simp [List.append_assoc]
      rw [hT]
      have hset1 : (ct ++ (H8 ++ [Slot.U F0, Slot.F 0, Slot.F 0, Slot.U pa])).set (ct.length + 9)
          (Slot.U (ct.length / 4 + 3))
          = ct ++ (H8 ++ [Slot.U F0, Slot.U (ct.length / 4 + 3), Slot.F 0, Slot.U pa]) := by
        rw [set_append_right _ _ _ _ (by omega), show ct.length + 9 - ct.length = 9 by omega,
          set_append_right _ _ _ _ (by rw [hH8len]; norm_num), hH8len]
        rfl
      rw [hset1]
      rw [flagsWord_nil il ir, ← hF0]
      have lenBuf5 : (ct ++ (H8 ++ [Slot.U F0, Slot.U (ct.length / 4 + 3), Slot.F 0,
          Slot.U pa])).length = ct.length + 12 := by
        simp only [List.length_append, List.length_cons, List.length_nil, hH8len]
      have ihl := compileFrom_spec l
        (ct ++ (H8 ++ [Slot.U F0, Slot.U (ct.length / 4 + 3), Slot.F 0, Slot.U pa]))
        (ct.length / 4) true false hwfl (by rw [lenBuf5]; omega) (by rw [lenBuf5]; omega)
      rw [lenBuf5, show (ct.length + 12) / 4 = ct.length / 4 + 3 by omega] at ihl
      rw [ihl]
      have hbindsome : ∀ (x : List Slot) (f : List Slot → Option (List Slot)),
          (some x).bind f = f x := fun x f => rfl
      rw [hbindsome]
      have lenBuf6 : ((ct ++ (H8 ++ [Slot.U F0, Slot.U (ct.length / 4 + 3), Slot.F 0,
          Slot.U pa])) ++ specCompile l (ct.length / 4 + 3) (ct.length / 4) true false).length
          = ct.length + 12 + compiledSlots l := by
        rw [List.length_append, lenBuf5, specCompile_length]
      rw [lenBuf6, show (ct.length + 12 + compiledSlots l) / 4 % U32
        = ct.length / 4 + 3 + compiledSlots l / 4 by rw [hU32] at *; omega]
      have hset2 : ((ct ++ (H8 ++ [Slot.U F0, Slot.U (ct.length / 4 + 3), Slot.F 0,
            Slot.U pa])) ++ specCompile l (ct.length / 4 + 3) (ct.length / 4) true false).set
            (ct.length + 10) (Slot.U (ct.length / 4 + 3 + compiledSlots l / 4))
          = (ct ++ (H8 ++ [Slot.U F0, Slot.U (ct.length / 4 + 3),
              Slot.U (ct.length / 4 + 3 + compiledSlots l / 4), Slot.U pa])) ++
            specCompile l (ct.length / 4 + 3) (ct.length / 4) true false := by
        rw [set_append_left _ _ _ _ (by rw [lenBuf5]; omega),
          set_append_right _ _ _ _ (by omega), show ct.length + 10 - ct.length = 10 by omega,
          set_append_right _ _ _ _ (by rw [hH8len]; norm_num), hH8len]
        rfl
      rw [hset2]
      have lenBuf7 : ((ct ++ (H8 ++ [Slot.U F0, Slot.U (ct.length / 4 + 3),
          Slot.U (ct.length / 4 + 3 + compiledSlots l / 4), Slot.U pa])) ++
          specCompile l (ct.length / 4 + 3) (ct.length / 4) true false).length
          = ct.length + 12 + compiledSlots l := by
        simp only [List.length_append, List.length_cons, List.length_nil, hH8len,
          specCompile_length]
      have ihh := compileFrom_spec h
        ((ct ++ (H8 ++ [Slot.U F0, Slot.U (ct.length / 4 + 3),
            Slot.U (ct.length / 4 + 3 + compiledSlots l / 4), Slot.U pa])) ++
          specCompile l (ct.length / 4 + 3) (ct.length / 4) true false)
        (ct.length / 4) false false hwfh (by rw [lenBuf7]; omega) (by rw [lenBuf7]; omega)
      rw [lenBuf7, show (ct.length + 12 + compiledSlots l) / 4
        = ct.length / 4 + 3 + compiledSlots l / 4 by omega] at ihh
      rw [ihh]
      simp [List.append_assoc]
    · rw [if_neg hps, if_neg hps]
      rw [flagsWord, if_neg hps]
      simp [List.append_assoc]

theorem specCompile_sub : ∀ (π : List Dir) (n : BoundingBox) (a p : ℕ) (il ir : Bool)
    (m : BoundingBox) (a' p' : ℕ) (il' ir' : Bool),
    WFb n = true →
    pathArgs n a p il ir π = some (m, a', p', il', ir') →
    WFb m = true ∧ a ≤ a' ∧
    ∃ pre post, specCompile n a p il ir = pre ++ (specCompile m a' p' il' ir' ++ post) ∧
      pre.length = 4 * (a' - a) := by
  intro π
  induction π with
  | nil =>
    intro n a p il ir m a' p' il' ir' hwf hp
    rw [pathArgs] at hp
    injection hp with hp
    simp only [Prod.mk.injEq] at hp
    obtain ⟨rfl, rfl, rfl, rfl, rfl⟩ := hp
    exact ⟨hwf, le_refl a, [], [], by simp, by simp⟩
  | cons d rest ih =>
    intro n a p il ir m a' p' il' ir' hwf hp
    match n with
    | .mk bb lo hi ps =>
      rw [pathArgs.eq_def] at hp
      dsimp only at hp
      by_cases hps : ps = []
      · rw [if_pos hps] at hp
        subst hps
        rw [WFb_mk] at hwf
        obtain ⟨l, h, rfl, rfl, hwfl, hwfh⟩ := hwf rfl
        have hdl := compiledSlots_dvd l
        match d with
        | .lo =>
          obtain ⟨hwfm, hle, pre, post, hdec, hlen⟩ :=
            ih l (a + 3) a true false m a' p' il' ir' hwfl hp
          refine ⟨hwfm, by omega, ?_⟩
          rw [specCompile.eq_def]
          dsimp only
          rw [if_pos rfl]
          refine ⟨[Slot.F bb.xmin, Slot.F bb.ymin, Slot.F bb.zmin, RGBA_PAD,
            Slot.F bb.xmax, Slot.F bb.ymax, Slot.F bb.zmax, RGBA_PAD,
            Slot.U (flagsWord il ir []), Slot.U (a + 3), Slot.U (a + 3 + compiledSlots l / 4),
            Slot.U p] ++ pre,
            post ++ specCompile h (a + 3 + compiledSlots l / 4) a false false, ?_, ?_⟩
          · rw [hdec]
            simp [List.append_assoc, flagsWord_nil]
          · simp only [List.length_append, List.length_cons, List.length_nil, hlen]
            omega
        | .hi =>
          obtain ⟨hwfm, hle, pre, post, hdec, hlen⟩ :=
            ih h (a + 3 + compiledSlots l / 4) a false false m a' p' il' ir' hwfh hp
          refine ⟨hwfm, by omega, ?_⟩
          rw [specCompile.eq_def]
          dsimp only
          rw [if_pos rfl]
          refine ⟨([Slot.F bb.xmin, Slot.F bb.ymin, Slot.F bb.zmin, RGBA_PAD,
            Slot.F bb.xmax, Slot.F bb.ymax, Slot.F bb.zmax, RGBA_PAD,
            Slot.U (flagsWord il ir []), Slot.U (a + 3), Slot.U (a + 3 + compiledSlots l / 4),
            Slot.U p] ++ specCompile l (a + 3) a true false) ++ pre,
            post, ?_, ?_⟩
          · rw [hdec]
            simp [List.append_assoc, flagsWord_nil]
          · simp only [List.length_append, List.length_cons, List.length_nil, hlen,
              specCompile_length]
            omega
      · rw [if_neg hps] at hp
        exact absurd hp (by simp)

theorem specCompile_info (m : BoundingBox) (a p : ℕ) (il ir : Bool) :
    (specCompile m a p il ir)[8]? = some (.U (flagsWord il ir m.primitives)) ∧
    (specCompile m a p il ir)[11]? = some (.U p) ∧
    (m.primitives = [] →
      (specCompile m a p il ir)[9]? = some (.U (a + 3)) ∧
      (specCompile m a p il ir)[10]? = some (.U (a + 3 +
        (match m.lower with | some l => compiledSlots l | none => 0) / 4))) := by
  match m with
  | .mk bb lo hi ps =>
    rw [specCompile.eq_def]
    dsimp only
    by_cases hps : ps = []
    · subst hps
      rw [if_pos rfl]
      refine ⟨?_, ?_, fun _ => ⟨?_, ?_⟩⟩ <;>
        simp [List.getElem?_append, List.length_append]
    · rw [if_neg hps]
      refine ⟨?_, ?_, fun hc => absurd hc hps⟩ <;>
        simp [List.getElem?_append, List.length_append, hps]

theorem compile_read (n : BoundingBox) (ct out : List Slot)
    (hwf : WFb n = true) (hdvd : 4 ∣ ct.length) (hbound : ct.length + compiledSlots n ≤ 2 ^ 31)
    (hc : CompileFrom n ct 0 false true = some out)
    (π : List Dir) (m : BoundingBox) (a' p' : ℕ) (il' ir' : Bool)
    (hp : pathArgs n (ct.length / 4) 0 false true π = some (m, a', p', il', ir')) :
    ∀ k, k < compiledSlots m → out[4 * a' + k]? = (specCompile m a' p' il' ir')[k]? := by
  intro k hk
  rw [compileFrom_spec n ct 0 false true hwf hdvd hbound] at hc
  injection hc with hc
  obtain ⟨hwfm, hle, pre, post, hdec, hlen⟩ :=
    specCompile_sub π n (ct.length / 4) 0 false true m a' p' il' ir' hwf hp
  subst hc
  rw [hdec]
  rw [show ct ++ (pre ++ (specCompile m a' p' il' ir' ++ post))
      = (ct ++ pre) ++ (specCompile m a' p' il' ir' ++ post) by simp [List.append_assoc]]
  have hctpre : (ct ++ pre).length = 4 * a' := by
    rw [List.length_append, hlen]
    omega
  rw [List.getElem?_append, if_neg (by omega), hctpre,
    show 4 * a' + k - 4 * a' = k by omega,
    List.getElem?_append, if_pos (by rw [specCompile_length]; omega)]

theorem pathArgs_snoc (π : List Dir) : ∀ (d : Dir) (n : BoundingBox) (a p : ℕ) (il ir : Bool)
    (m : BoundingBox) (a' p' : ℕ) (il' ir' : Bool),
    pathArgs n a p il ir π = some (m, a', p', il', ir') →
    pathArgs n a p il ir (π ++ [d]) =
      (match m, d with
       | .mk _ lo hi ps, d =>
         if ps = [] then
           match lo, hi with
           | some l, some h =>
             match d with
             | .lo => some (l, a' + 3, a', true, false)
             | .hi => some (h, a' + 3 + compiledSlots l / 4, a', false, false)
           | _, _ => none
         else none) := by
  induction π with
  | nil =>
    intro d n a p il ir m a' p' il' ir' hp
    rw [pathArgs] at hp
    injection hp with hp
    simp only [Prod.mk.injEq] at hp
    obtain ⟨rfl, rfl, rfl, rfl, rfl⟩ := hp
    rw [List.nil_append, pathArgs.eq_def]
    match n with
    | .mk bb lo hi ps =>
      dsimp only
      by_cases hps : ps = []
      · rw [if_pos hps, if_pos hps]
        match lo, hi with
        | some l, some h =>
          match d with
          | .lo =>
            dsimp only
            rw [pathArgs]
          | .hi =>
            dsimp only
            rw [pathArgs]
        | none, _ => rfl
        | some l, none => rfl
      · rw [if_neg hps, if_neg hps]
  | cons e rest ih =>
    intro d n a p il ir m a' p' il' ir' hp
    rw [pathArgs.eq_def] at hp
    match n with
    | .mk bb lo hi ps =>
      dsimp only at hp
      rw [List.cons_append, pathArgs.eq_def]
      dsimp only
      by_cases hps : ps = []
      · rw [if_pos hps] at hp ⊢
        match lo, hi with
        | some l, some h =>
          match e with
          | .lo => exact ih d l (a + 3) a true false m a' p' il' ir' hp
          | .hi => exact ih d h (a + 3 + compiledSlots l / 4) a false false m a' p' il' ir' hp
        | none, _ => simp at hp
        | some l, none => simp at hp
      · rw [if_neg hps] at hp
        simp at hp

theorem pathArgs_root_flag (π : List Dir) : ∀ (n : BoundingBox) (a p : ℕ) (il ir : Bool)
    (m : BoundingBox) (a' p' : ℕ) (il' ir' : Bool),
    pathArgs n a p il ir π = some (m, a', p', il', ir') →
    (π = [] ∧ il' = il ∧ ir' = ir) ∨ (π ≠ [] ∧ ir' = false) := by
  induction π with
  | nil =>
    intro n a p il ir m a' p' il' ir' hp
    rw [pathArgs] at hp
    injection hp with hp
    simp only [Prod.mk.injEq] at hp
    exact Or.inl ⟨rfl, hp.2.2.2.1.symm, hp.2.2.2.2.symm⟩
  | cons e rest ih =>
    intro n a p il ir m a' p' il' ir' hp
    rw [pathArgs.eq_def] at hp
    match n with
    | .mk bb lo hi ps =>
      dsimp only at hp
      by_cases hps : ps = []
      · rw [if_pos hps] at hp
        match lo, hi with
        | some l, some h =>
          refine Or.inr ⟨by simp, ?_⟩
          match e with
          | .lo =>
            rcases ih l (a + 3) a true false m a' p' il' ir' hp with ⟨_, _, hir⟩ | ⟨_, hir⟩ <;>
              exact hir
          | .hi =>
            rcases ih h (a + 3 + compiledSlots l / 4) a false false m a' p' il' ir' hp with
              ⟨_, _, hir⟩ | ⟨_, hir⟩ <;> exact hir
        | none, _ => simp at hp
        | some l, none => simp at hp
      · rw [if_neg hps] at hp
        simp at hp

theorem FLAGS_COMPL_eq : FLAGS_COMPL = 2 ^ 29 - 1 := by decide

theorem flagsWord_leaf (il ir : Bool) (ps : List Prim) (hne : ps ≠ []) :
    flagsWord il ir ps = ((if il then IS_LOWER else 0) ||| (if ir then IS_ROOT else 0)) |||
      LEAF ||| (ps.length % U32 &&& FLAGS_COMPL) := by
  rw [flagsWord, if_neg hne]

theorem lor_mul_pow_add (A r : ℕ) (h : r < 2 ^ 29) :
    ((2 ^ 29 * A) ||| r) = 2 ^ 29 * A + r := by
  apply Nat.eq_of_testBit_eq
  intro i
  rw [Nat.testBit_lor, Nat.testBit_mul_pow_two, Nat.testBit_mul_pow_two_add A h]
  by_cases hi : i < 29
  · simp [hi, show ¬(i ≥ 29) by omega]
  · rw [if_neg hi]
    simp [show i ≥ 29 by omega,
      Nat.testBit_lt_two_pow (lt_of_lt_of_le h (Nat.pow_le_pow_right (by norm_num)
        (by omega : 29 ≤ i)))]

/-- The flags word written into an info quad, as a plain sum: `LEAF` bit for
leaves, `IS_LOWER`/`IS_ROOT` bits, and (for leaves) the primitive count
truncated to 29 bits. -/
theorem flagsWord_eq_arith (il ir : Bool) (ps : List Prim) :
    flagsWord il ir ps =
      (if ps = [] then 0 else 2 ^ 31) + (if il then 2 ^ 30 else 0) +
      (if ir then 2 ^ 29 else 0) + (if ps = [] then 0 else ps.length % 2 ^ 29) := by
  have hU : (U32 : ℕ) = 2 ^ 32 := by decide
  have hr : ps.length % 2 ^ 29 < 2 ^ 29 := Nat.mod_lt _ (by norm_num)
  by_cases hps : ps = []
  · subst hps
    rw [flagsWord_nil]
    cases il <;> cases ir <;> simp <;> decide
  · rw [flagsWord_leaf il ir ps hps, FLAGS_COMPL_eq, Nat.and_pow_two_sub_one_eq_mod, hU,
      Nat.mod_mod_of_dvd _ (by norm_num : (2:ℕ) ^ 29 ∣ 2 ^ 32)]
    cases il <;> cases ir <;> simp only [Bool.false_eq_true, if_false, if_true, eq_self_iff_true, hps]
    · rw [show (((0:ℕ) ||| 0) ||| LEAF) = 2 ^ 29 * 4 by decide, lor_mul_pow_add _ _ hr]
      omega
    · rw [show (((0:ℕ) ||| IS_ROOT) ||| LEAF) = 2 ^ 29 * 5 by decide, lor_mul_pow_add _ _ hr]
      omega
    · rw [show (((IS_LOWER:ℕ) ||| 0) ||| LEAF) = 2 ^ 29 * 6 by decide, lor_mul_pow_add _ _ hr]
      omega
    · rw [show (((IS_LOWER:ℕ) ||| IS_ROOT) ||| LEAF) = 2 ^ 29 * 7 by decide,
        lor_mul_pow_add _ _ hr]
      omega

theorem flagsWord_testBit31 (il ir : Bool) (ps : List Prim) :
    ((flagsWord il ir ps).testBit 31 = true) ↔ ps ≠ [] := by
  rw [flagsWord_eq_arith, Nat.testBit_to_div_mod, decide_eq_true_eq]
  by_cases hps : ps = [] <;> cases il <;> cases ir <;> simp [hps] <;> omega

theorem flagsWord_testBit30 (il ir : Bool) (ps : List Prim) :
    ((flagsWord il ir ps).testBit 30 = true) ↔ il = true := by
  rw [flagsWord_eq_arith, Nat.testBit_to_div_mod, decide_eq_true_eq]
  have h29 : ps.length % 2 ^ 29 < 2 ^ 29 := Nat.mod_lt _ (by norm_num)
  by_cases hps : ps = [] <;> cases il <;> cases ir <;> simp [hps] <;> omega

theorem flagsWord_testBit29 (il ir : Bool) (ps : List Prim) :
    ((flagsWord il ir ps).testBit 29 = true) ↔ ir = true := by
  rw [flagsWord_eq_arith, Nat.testBit_to_div_mod, decide_eq_true_eq]
  have h29 : ps.length % 2 ^ 29 < 2 ^ 29 := Nat.mod_lt _ (by norm_num)
  by_cases hps : ps = [] <;> cases il <;> cases ir <;> simp [hps] <;> omega

theorem flagsWord_mod_internal (il ir : Bool) :
    flagsWord il ir [] % 2 ^ 29 = 0 := by
  rw [flagsWord_eq_arith]
  cases il <;> cases ir <;> simp <;> omega

theorem flagsWord_mod_leaf (il ir : Bool) (ps : List Prim) (hne : ps ≠ [])
    (hcnt : ps.length < 2 ^ 29) :
    flagsWord il ir ps % 2 ^ 29 = ps.length := by
  rw [flagsWord_eq_arith]
  cases il <;> cases ir <;> simp [hne] <;> omega

theorem sum_store_ge (ps : List Prim) :
    8 * ps.length ≤ (ps.map (fun p => p.StoreIntoBVH.length)).sum := by
  induction ps with
  | nil => simp
  | cons p ps ih =>
    rw [List.map_cons, List.sum_cons, List.length_cons]
    have h8 : 8 ≤ p.StoreIntoBVH.length := by
      rcases storeIntoBVH_length p with h | h | h | h <;> omega
    omega

theorem leaf_count_lt (m : BoundingBox) (hne : m.primitives ≠ [])
    (hb : compiledSlots m ≤ 2 ^ 31) : m.primitives.length < 2 ^ 29 := by
  match m with
  | .mk bb lo hi ps =>
    rw [compiledSlots.eq_def] at hb
    dsimp only at hb
    rw [if_neg (by simpa using hne)] at hb
    have := sum_store_ge ps
    simp only [BoundingBox.primitives_mk] at hne ⊢
    omega

theorem pathArgs_parent (σ : List Dir) : ∀ (d : Dir) (n : BoundingBox) (a p : ℕ) (il ir : Bool)
    (m : BoundingBox) (a' p' : ℕ) (il' ir' : Bool),
    pathArgs n a p il ir (σ ++ [d]) = some (m, a', p', il', ir') →
    ∃ mp pp ilp irp, pathArgs n a p il ir σ = some (mp, p', pp, ilp, irp) := by
  induction σ with
  | nil =>
    intro d n a p il ir m a' p' il' ir' hp
    rw [List.nil_append, pathArgs.eq_def] at hp
    match n with
    | .mk bb lo hi ps =>
      dsimp only at hp
      by_cases hps : ps = []
      · rw [if_pos hps] at hp
        match lo, hi with
        | some l, some h =>
          match d with
          | .lo =>
            dsimp only at hp
            rw [pathArgs] at hp
            injection hp with hp
            simp only [Prod.mk.injEq] at hp
            exact ⟨.mk bb (some l) (some h) ps, p, il, ir, by rw [pathArgs, hp.2.2.1]⟩
          | .hi =>
            dsimp only at hp
            rw [pathArgs] at hp
            injection hp with hp
            simp only [Prod.mk.injEq] at hp
            exact ⟨.mk bb (some l) (some h) ps, p, il, ir, by rw [pathArgs, hp.2.2.1]⟩
        | none, _ => simp at hp
        | some l, none => simp at hp
      · rw [if_neg hps] at hp
        simp at hp
  | cons e σ ih =>
    intro d n a p il ir m a' p' il' ir' hp
    rw [List.cons_append, pathArgs.eq_def] at hp
    match n with
    | .mk bb lo hi ps =>
      dsimp only at hp
      rw [pathArgs.eq_def]
      dsimp only
      by_cases hps : ps = []
      · rw [if_pos hps] at hp ⊢
        match lo, hi with
        | some l, some h =>
          match e with
          | .lo => exact ih d l (a + 3) a true false m a' p' il' ir' hp
          | .hi => exact ih d h (a + 3 + compiledSlots l / 4) a false false m a' p' il' ir' hp
        | none, _ => simp at hp
        | some l, none => simp at hp
      · rw [if_neg hps] at hp
        simp at hp

theorem specCompile_head (m : BoundingBox) (a p : ℕ) (il ir : Bool) :
    (specCompile m a p il ir)[0]? = some (.F m.box.xmin) := by
  match m with
  | .mk bb lo hi ps =>
    rw [specCompile.eq_def]
    dsimp only
    by_cases hps : ps = []
    · rw [if_pos hps]
      rfl
    · rw [if_neg hps]
      rfl

/-- C5: in every compiled buffer, each internal node's info quad stores as
`lower_addr`/`higher_addr` exactly the absolute quad indices at which the
lower and higher child subtree records begin (`a+3` and `a+3+` lower-subtree
quads, which is where `pathArgs` places them and where each child's record
head is found), and every node's stored `parent_addr` is the quad index of
its parent's record (for the root, the 0 passed by `Compile`). -/
theorem gpuartC5_addresses (n : BoundingBox) (ct out : List Slot)
    (hwf : WFb n = true) (hdvd : 4 ∣ ct.length) (hbound : ct.length + compiledSlots n ≤ 2 ^ 31)
    (hc : CompileFrom n ct 0 false true = some out)
    (π : List Dir) (m : BoundingBox) (a' p' : ℕ) (il' ir' : Bool)
    (hp : pathArgs n (ct.length / 4) 0 false true π = some (m, a', p', il', ir')) :
    out[4 * a']? = some (.F m.box.xmin) ∧
    out[4 * a' + 11]? = some (.U p') ∧
    (∀ σ d, π = σ ++ [d] → ∃ mp pp ilp irp,
      pathArgs n (ct.length / 4) 0 false true σ = some (mp, p', pp, ilp, irp)) ∧
    (∀ l h, m.lower = some l → m.higher = some h → m.primitives = [] →
      out[4 * a' + 9]? = some (.U (a' + 3)) ∧
      out[4 * a' + 10]? = some (.U (a' + 3 + compiledSlots l / 4)) ∧
      pathArgs n (ct.length / 4) 0 false true (π ++ [Dir.lo]) = some (l, a' + 3, a', true, false) ∧
      pathArgs n (ct.length / 4) 0 false true (π ++ [Dir.hi]) =
        some (h, a' + 3 + compiledSlots l / 4, a', false, false) ∧
      out[4 * (a' + 3)]? = some (.F l.box.xmin) ∧
      out[4 * (a' + 3 + compiledSlots l / 4)]? = some (.F h.box.xmin)) := by
  have hread := compile_read n ct out hwf hdvd hbound hc π m a' p' il' ir' hp
  have hge := compiledSlots_ge m
  obtain ⟨hi8, hi11, hinternal⟩ := specCompile_info m a' p' il' ir'
  refine ⟨?_, ?_, ?_, ?_⟩
  · rw [show 4 * a' = 4 * a' + 0 by omega, hread 0 (by omega), specCompile_head]
  · rw [hread 11 (by omega), hi11]
  · intro σ d hπ
    subst hπ
    exact pathArgs_parent σ d n (ct.length / 4) 0 false true m a' p' il' ir' hp
  · intro l h hl hh hps
    obtain ⟨hi9, hi10⟩ := hinternal hps
    have hsnoc := pathArgs_snoc π Dir.lo n (ct.length / 4) 0 false true m a' p' il' ir' hp
    have hsnoc2 := pathArgs_snoc π Dir.hi n (ct.length / 4) 0 false true m a' p' il' ir' hp
    match m with
    | .mk bb lo hi2 ps =>
      simp only [BoundingBox.lower_mk, BoundingBox.higher_mk] at hl hh
      simp only [BoundingBox.primitives_mk] at hps
      subst hl
      subst hh
      subst hps
      dsimp only at hsnoc hsnoc2
      rw [if_pos rfl] at hsnoc hsnoc2
      have hplo : pathArgs n (ct.length / 4) 0 false true (π ++ [Dir.lo])
          = some (l, a' + 3, a', true, false) := hsnoc
      have hphi : pathArgs n (ct.length / 4) 0 false true (π ++ [Dir.hi])
          = some (h, a' + 3 + compiledSlots l / 4, a', false, false) := hsnoc2
      simp only [BoundingBox.lower_mk] at hi10
      have hrl := compile_read n ct out hwf hdvd hbound hc (π ++ [Dir.lo])
        l (a' + 3) a' true false hplo
      have hrh := compile_read n ct out hwf hdvd hbound hc (π ++ [Dir.hi])
        h (a' + 3 + compiledSlots l / 4) a' false false hphi
      refine ⟨?_, ?_, hplo, hphi, ?_, ?_⟩
      · rw [hread 9 (by omega), hi9]
      · rw [hread 10 (by omega), hi10]
      · rw [show 4 * (a' + 3) = 4 * (a' + 3) + 0 by omega,
          hrl 0 (lt_of_lt_of_le (by norm_num) (compiledSlots_ge l)), specCompile_head]
      · rw [show 4 * (a' + 3 + compiledSlots l / 4) = 4 * (a' + 3 + compiledSlots l / 4) + 0
          by omega,
          hrh 0 (lt_of_lt_of_le (by norm_num) (compiledSlots_ge h)), specCompile_head]

/-- C8: in every compiled buffer's info quads, bit 31 (`LEAF`) is set iff
the emitted node is a leaf, bit 30 (`IS_LOWER`) is set iff it is its
parent's lower child, bit 29 (`IS_ROOT`) is set exactly on the root node
(the empty path) and no other, and bits 0-28 hold the leaf's primitive
count for leaves and 0 for internal nodes. -/
theorem gpuartC8_flags (n : BoundingBox) (ct out : List Slot)
    (hwf : WFb n = true) (hdvd : 4 ∣ ct.length) (hbound : ct.length + compiledSlots n ≤ 2 ^ 31)
    (hc : CompileFrom n ct 0 false true = some out)
    (π : List Dir) (m : BoundingBox) (a' p' : ℕ) (il' ir' : Bool)
    (hp : pathArgs n (ct.length / 4) 0 false true π = some (m, a', p', il', ir')) :
    ∃ f : ℕ, out[4 * a' + 8]? = some (.U f) ∧
      (f.testBit 31 = true ↔ m.primitives ≠ []) ∧
      (f.testBit 30 = true ↔ il' = true) ∧
      (f.testBit 29 = true ↔ π = []) ∧
      (m.primitives = [] → f % 2 ^ 29 = 0) ∧
      (m.primitives ≠ [] → f % 2 ^ 29 = m.primitives.length) := by
  have hread := compile_read n ct out hwf hdvd hbound hc π m a' p' il' ir' hp
  have hge := compiledSlots_ge m
  obtain ⟨hi8, _, _⟩ := specCompile_info m a' p' il' ir'
  refine ⟨flagsWord il' ir' m.primitives, by rw [hread 8 (by omega), hi8], ?_, ?_, ?_, ?_, ?_⟩
  · rw [flagsWord_testBit31]
  · rw [flagsWord_testBit30]
  · rw [flagsWord_testBit29]
    rcases pathArgs_root_flag π n (ct.length / 4) 0 false true m a' p' il' ir' hp with
      ⟨hnil, _, hir⟩ | ⟨hne, hir⟩
    · subst hnil
      rw [hir]
      simp
    · rw [hir]
      simp [hne]
  · intro hps
    rw [hps]
    exact flagsWord_mod_internal il' ir'
  · intro hps
    have hmle : compiledSlots m ≤ 2 ^ 31 := by
      have hsub := specCompile_sub π n (ct.length / 4) 0 false true m a' p' il' ir' hwf hp
      obtain ⟨_, _, pre, post, hdec, _⟩ := hsub
      have := congrArg List.length hdec
      rw [specCompile_length, List.length_append, List.length_append,
        specCompile_length] at this
      omega
    exact flagsWord_mod_leaf il' ir' m.primitives hps (leaf_count_lt m hps hmle)

/-- C10: `CompileFrom` only appends: every buffer element present before the
call is unchanged afterwards, the output is exactly the old buffer followed
by the (address-correct) record sequence of the tree, and the new root
record begins at the quad index `prior length / 4` with all addresses
absolute from the start of the whole buffer. -/
theorem gpuartC10_frame (n : BoundingBox) (ct out : List Slot)
    (hwf : WFb n = true) (hdvd : 4 ∣ ct.length) (hbound : ct.length + compiledSlots n ≤ 2 ^ 31)
    (hc : Compile n ct = some out) :
    (∀ i, i < ct.length → out[i]? = ct[i]?) ∧
    out.length = ct.length + compiledSlots n ∧
    out = ct ++ specCompile n (ct.length / 4) 0 false true ∧
    out[4 * (ct.length / 4)]? = some (.F n.box.xmin) := by
  rw [Compile, compileFrom_spec n ct 0 false true hwf hdvd hbound] at hc
  injection hc with hc
  subst hc
  refine ⟨?_, ?_, rfl, ?_⟩
  · intro i hilt
    rw [List.getElem?_append, if_pos hilt]
  · rw [List.length_append, specCompile_length]
  · rw [show 4 * (ct.length / 4) = ct.length by omega, List.getElem?_append,
      if_neg (by omega), Nat.sub_self]
    have hh := specCompile_head n (ct.length / 4) 0 false true
    rw [show ((specCompile n (ct.length / 4) 0 false true)[0]?)
        = (specCompile n (ct.length / 4) 0 false true)[(0:ℕ)]? from rfl] at hh
    exact hh

/-- C2 is violated by the code: building over the (well-formed) empty
primitive list makes the root an empty leaf, and compiling it takes the
internal-node branch and dereferences the null children (modelled as
`none`). -/
theorem gpuartC2_compile_crash :
    Compile (BVHConstruct [] 1 1).1 [] = none := by
  rw [show (BVHConstruct [] 1 1).1 = BoundingBox.mk sentinelBox none none [] from
    congrArg Prod.fst bvh_empty_eval]
  rw [Compile, CompileFrom.eq_def]
  dsimp only
  rw [if_pos rfl]
  rfl

theorem gpuartC5_addresses_witness :
    (WFb wTree = true ∧ (4 ∣ ([] : List Slot).length) ∧
      ([] : List Slot).length + compiledSlots wTree ≤ 2 ^ 31 ∧
      CompileFrom wTree [] 0 false true = some wOut ∧
      pathArgs wTree 0 0 false true [] = some (wTree, 0, 0, false, true)) ∧
    (wOut[4 * 0]? = some (.F wTree.box.xmin) ∧
     wOut[4 * 0 + 11]? = some (.U 0) ∧
     (∀ σ d, ([] : List Dir) = σ ++ [d] → ∃ mp pp ilp irp,
       pathArgs wTree 0 0 false true σ = some (mp, 0, pp, ilp, irp)) ∧
     (∀ l h, wTree.lower = some l → wTree.higher = some h → wTree.primitives = [] →
       wOut[4 * 0 + 9]? = some (.U (0 + 3)) ∧
       wOut[4 * 0 + 10]? = some (.U (0 + 3 + compiledSlots l / 4)) ∧
       pathArgs wTree 0 0 false true ([] ++ [Dir.lo]) = some (l, 0 + 3, 0, true, false) ∧
       pathArgs wTree 0 0 false true ([] ++ [Dir.hi]) =
         some (h, 0 + 3 + compiledSlots l / 4, 0, false, false) ∧
       wOut[4 * (0 + 3)]? = some (.F l.box.xmin) ∧
       wOut[4 * (0 + 3 + compiledSlots l / 4)]? = some (.F h.box.xmin))) :=
  ⟨⟨by decide, by decide, by decide, by decide, rfl⟩,
    gpuartC5_addresses wTree [] wOut (by decide) (by decide) (by decide) (by decide)
      [] wTree 0 0 false true rfl⟩

theorem gpuartC8_flags_witness :
    (WFb wTree = true ∧ (4 ∣ ([] : List Slot).length) ∧
      ([] : List Slot).length + compiledSlots wTree ≤ 2 ^ 31 ∧
      CompileFrom wTree [] 0 false true = some wOut ∧
      pathArgs wTree 0 0 false true [Dir.lo] = some (wLeafA, 3, 0, true, false)) ∧
    (∃ f : ℕ, wOut[4 * 3 + 8]? = some (.U f) ∧
      (f.testBit 31 = true ↔ wLeafA.primitives ≠ []) ∧
      (f.testBit 30 = true ↔ true = true) ∧
      (f.testBit 29 = true ↔ ([Dir.lo] : List Dir) = []) ∧
      (wLeafA.primitives = [] → f % 2 ^ 29 = 0) ∧
      (wLeafA.primitives ≠ [] → f % 2 ^ 29 = wLeafA.primitives.length)) :=
  ⟨⟨by decide, by decide, by decide, by decide, rfl⟩,
    gpuartC8_flags wTree [] wOut (by decide) (by decide) (by decide) (by decide)
      [Dir.lo] wLeafA 3 0 true false rfl⟩

theorem gpuartC10_frame_witness :
    (WFb wTree = true ∧ (4 ∣ ([] : List Slot).length) ∧
      ([] : List Slot).length + compiledSlots wTree ≤ 2 ^ 31 ∧
      Compile wTree [] = some wOut) ∧
    ((∀ i, i < ([] : List Slot).length → wOut[i]? = ([] : List Slot)[i]?) ∧
     wOut.length = ([] : List Slot).length + compiledSlots wTree ∧
     wOut = [] ++ specCompile wTree 0 0 false true ∧
     wOut[4 * 0]? = some (.F wTree.box.xmin)) :=
  ⟨⟨by decide, by decide, by decide, by decide⟩,
    gpuartC10_frame wTree [] wOut (by decide) (by decide) (by decide) (by decide)⟩

/-- C1 fails on the code for the cone variant: `Cone::StoreDataIntoBVH`
writes 16 slots (4 quads), but `Cone::PrintBVH` advances the cursor by 20
slots (5 quads), skipping the radius slots as if they were padding and
reading 2 slots past the record; the sphere, disc and triangle decoders
consume exactly what their encoders produced. -/
theorem gpuartC1_cone_print_mismatch :
    ((Prim.cone ⟨0, 0, 0⟩ ⟨0, 0, 1⟩ 1 1 ⟨0, 0, 1⟩ 1 0 0 0).StoreDataIntoBVH).length = 16 ∧
    (ConePrintBVH ((Prim.cone ⟨0, 0, 0⟩ ⟨0, 0, 1⟩ 1 1 ⟨0, 0, 1⟩ 1 0 0 0).StoreDataIntoBVH)
      ⟨0, []⟩).pos = 20 ∧
    (SpherePrintBVH ((Prim.sphere ⟨0, 0, 0⟩ 1).StoreDataIntoBVH) ⟨0, []⟩).pos
      = ((Prim.sphere ⟨0, 0, 0⟩ 1).StoreDataIntoBVH).length ∧
    (DiscPrintBVH ((Prim.disc ⟨0, 0, 0⟩ ⟨0, 0, 1⟩ 1).StoreDataIntoBVH) ⟨0, []⟩).pos
      = ((Prim.disc ⟨0, 0, 0⟩ ⟨0, 0, 1⟩ 1).StoreDataIntoBVH).length ∧
    (TrianglePrintBVH ((Prim.triangle ⟨0, 0, 0⟩ ⟨1, 0, 0⟩ ⟨0, 1, 0⟩).StoreDataIntoBVH)
      ⟨0, []⟩).pos
      = ((Prim.triangle ⟨0, 0, 0⟩ ⟨1, 0, 0⟩ ⟨0, 1, 0⟩).StoreDataIntoBVH).length ∧
    ¬ (20 = 16) := by
  refine ⟨rfl, rfl, rfl, rfl, rfl, by decide⟩
